import Mathlib

set_option maxRecDepth 100000

/-!
Verification development for the utask entity/index store.

The Go sources are shallowly embedded here:
  - `internal/utask/normalize.go`  → `NormalizeInput` and its helpers
  - the task/trailer file (`Task`, `Details`, `Trailers`, `TrailerDrops`,
    `splitLines`, `parseTrailer`, `trailerRegionBounds`, `trailerBlock`)
  - `internal/utask/nats_store.go` → a state-passing model of the two
    NATS KV buckets (`tasks`, `tags`) and the store operations
    (`CreateTask`, `UpdateTask`, `DeleteTask`, `CloseTask`, `ReopenTask`,
    `ListTasks`, `Query`, `RebuildIndex`, `Resolve`, `matchPrefix`).

Go strings are modelled as `List Char` (`Str`).  Byte-level operations of
the Go code (`strings.Split` on a one-byte separator, `strings.HasPrefix`,
trailer scanning) coincide with the character-level functions used here on
valid UTF-8 data, because UTF-8 is order- and boundary-preserving for the
ASCII delimiters involved.
-/

namespace UTask

abbrev Str := List Char

/-- `unicode.IsSpace` of Go: the Unicode White_Space code points. -/
def goIsSpace (c : Char) : Bool :=
  decide ((9 ≤ c.toNat ∧ c.toNat ≤ 13) ∨ c.toNat = 32 ∨ c.toNat = 0x85 ∨
    c.toNat = 0xA0 ∨ c.toNat = 0x1680 ∨
    (0x2000 ≤ c.toNat ∧ c.toNat ≤ 0x200A) ∨ c.toNat = 0x2028 ∨
    c.toNat = 0x2029 ∨ c.toNat = 0x202F ∨ c.toNat = 0x205F ∨ c.toNat = 0x3000)

/-- `strings.TrimSpace` of Go: drop White_Space characters from both ends. -/
def goTrimSpace (s : Str) : Str :=
  ((s.dropWhile goIsSpace).reverse.dropWhile goIsSpace).reverse

/-- `strings.ToLower` of Go, restricted to ASCII case folding (the full
Unicode case tables are elided; every tag exercised by the claims is
ASCII). -/
def goToLower (s : Str) : Str :=
  s.map Char.toLower

/-- `strings.Split(s, "\n")` of Go, and the `splitLines` helper of the task
file (the two agree): split on newline, always returning at least one
piece. -/
def splitLinesAux : Str → Str × List Str
  | [] => ([], [])
  | c :: rest =>
    if c = '\n' then ([], (splitLinesAux rest).1 :: (splitLinesAux rest).2)
    else (c :: (splitLinesAux rest).1, (splitLinesAux rest).2)

def splitLines (s : Str) : List Str :=
  (splitLinesAux s).1 :: (splitLinesAux s).2

/-- `strings.Join(lines, "\n")` of Go, and the `joinLines` helper of the
task file. -/
def joinLines : List Str → Str
  | [] => []
  | [l] => l
  | l :: ls => l ++ '\n' :: joinLines ls

end UTask

namespace UTask

lemma splitLines_ne_nil (s : Str) : splitLines s ≠ [] := by
  simp [splitLines]

lemma splitLinesAux_append_newline (a b : Str) :
    splitLinesAux (a ++ '\n' :: b) =
      ((splitLinesAux a).1,
        (splitLinesAux a).2 ++ (splitLinesAux b).1 :: (splitLinesAux b).2) := by
  induction a with
  | nil => simp [splitLinesAux]
  | cons c rest ih =>
    by_cases h : c = '\n' <;> simp [splitLinesAux, h, ih]

lemma splitLinesAux_no_newline (s : Str) (h : '\n' ∉ s) :
    splitLinesAux s = (s, []) := by
  induction s with
  | nil => simp [splitLinesAux]
  | cons c rest ih =>
    simp only [List.mem_cons, not_or] at h
    have hc : ¬c = '\n' := fun hc => h.1 hc.symm
    simp [splitLinesAux, hc, ih h.2]

/-- Round trip: splitting a newline join recovers the pieces, provided no
piece contains a newline. -/
lemma splitLines_joinLines (ls : List Str) (hne : ls ≠ [])
    (h : ∀ l ∈ ls, '\n' ∉ l) : splitLines (joinLines ls) = ls := by
  induction ls with
  | nil => exact absurd rfl hne
  | cons l rest ih =>
    cases rest with
    | nil =>
      have hl : '\n' ∉ l := h l (by simp)
      simp [joinLines, splitLines, splitLinesAux_no_newline l hl]
    | cons l2 rest2 =>
      have hl : '\n' ∉ l := h l (by simp)
      have hrest : splitLines (joinLines (l2 :: rest2)) = l2 :: rest2 :=
        ih (by simp) (fun x hx => h x (by simp [hx]))
      have : joinLines (l :: l2 :: rest2) = l ++ '\n' :: joinLines (l2 :: rest2) := by
        simp [joinLines]
      rw [splitLines, this, splitLinesAux_append_newline,
        splitLinesAux_no_newline l hl]
      simpa [splitLines] using hrest

lemma splitLinesAux_mem_no_newline (s : Str) :
    '\n' ∉ (splitLinesAux s).1 ∧ ∀ l ∈ (splitLinesAux s).2, '\n' ∉ l := by
  induction s with
  | nil => simp [splitLinesAux]
  | cons c rest ih =>
    by_cases h : c = '\n'
    · subst h
      refine ⟨by simp [splitLinesAux], ?_⟩
      intro l hl
      simp [splitLinesAux] at hl
      rcases hl with h1 | h1
      · exact h1 ▸ ih.1
      · exact ih.2 l h1
    · constructor
      · simp only [splitLinesAux, if_neg h, List.mem_cons, not_or]
        exact ⟨fun hc => h hc.symm, ih.1⟩
      · intro l hl
        simp only [splitLinesAux, if_neg h] at hl
        exact ih.2 l hl

/-- Every piece produced by `splitLines` is newline-free. -/
lemma splitLines_no_newline (s : Str) : ∀ l ∈ splitLines s, '\n' ∉ l := by
  intro l hl
  rcases List.mem_cons.mp hl with h1 | h1
  · exact h1 ▸ (splitLinesAux_mem_no_newline s).1
  · exact (splitLinesAux_mem_no_newline s).2 l h1

lemma goTrimSpace_sublist (s : Str) : (goTrimSpace s).Sublist s := by
  have h1 : (s.dropWhile goIsSpace).Sublist s := List.dropWhile_sublist _
  have h2 : ((s.dropWhile goIsSpace).reverse.dropWhile goIsSpace).Sublist
      (s.dropWhile goIsSpace).reverse := List.dropWhile_sublist _
  have h3 := h2.reverse
  simpa [goTrimSpace] using h3.trans (by simpa using h1)

lemma goTrimSpace_subset (s : Str) : ∀ c ∈ goTrimSpace s, c ∈ s :=
  fun _ hc => (goTrimSpace_sublist s).subset hc

/-- A list whose first and last characters are not white space is fixed by
`goTrimSpace`. -/
lemma goTrimSpace_eq_self (s : Str)
    (h : ∀ c ∈ s, goIsSpace c = false) : goTrimSpace s = s := by
  have h1 : s.dropWhile goIsSpace = s := by
    cases s with
    | nil => rfl
    | cons c rest => simp [List.dropWhile_cons, h c (by simp)]
  have h2 : s.reverse.dropWhile goIsSpace = s.reverse := by
    cases hs : s.reverse with
    | nil => rfl
    | cons c rest =>
      have hc : c ∈ s := by
        have : c ∈ s.reverse := by simp [hs]
        simpa using this
      simp [List.dropWhile_cons, h c hc]
  simp [goTrimSpace, h1, h2]

/-- The head of a non-empty `dropWhile` result fails the predicate. -/
lemma dropWhile_head_false (p : Char → Bool) (l : Str) (c : Char) (rest : Str)
    (h : l.dropWhile p = c :: rest) : p c = false := by
  induction l with
  | nil => simp [List.dropWhile] at h
  | cons x xs ih =>
    by_cases hx : p x
    · exact ih (by simpa [List.dropWhile_cons, hx] using h)
    · rw [List.dropWhile_cons, if_neg (by simp [hx])] at h
      cases h; simpa using hx

lemma dropWhile_of_head_false (p : Char → Bool) (l : Str)
    (h : ∀ c rest, l = c :: rest → p c = false) : l.dropWhile p = l := by
  cases l with
  | nil => rfl
  | cons c rest => simp [List.dropWhile_cons, h c rest rfl]

/-- Both ends of a trimmed list start with a non-space character, hence a
second trim is the identity. -/
lemma goTrimSpace_idem (s : Str) :
    goTrimSpace (goTrimSpace s) = goTrimSpace s := by
  set a := s.dropWhile goIsSpace with ha
  set b := a.reverse.dropWhile goIsSpace with hb
  have hr : goTrimSpace s = b.reverse := rfl
  -- front of `b.reverse` is the front of `a`, which is non-space
  have hfrontfix : b.reverse.dropWhile goIsSpace = b.reverse := by
    apply dropWhile_of_head_false
    intro c rest hc
    -- `b` is a suffix of `a.reverse`, so `b.reverse` is a prefix of `a`
    have hsuf : b <:+ a.reverse := hb ▸ List.dropWhile_suffix goIsSpace
    have hpre : b.reverse <+: a := by
      have h2 := (@List.reverse_prefix _ b a.reverse).mpr hsuf
      simpa using h2
    obtain ⟨t, ht⟩ := hpre
    have hahead : a = c :: (rest ++ t) := by rw [← ht, hc]; simp
    exact dropWhile_head_false goIsSpace s c (rest ++ t) (ha ▸ hahead)
  -- back of `b.reverse` is the head of `b`, which is non-space
  have hbackfix : b.reverse.reverse.dropWhile goIsSpace = b.reverse.reverse := by
    rw [List.reverse_reverse]
    apply dropWhile_of_head_false
    intro c rest hc
    exact dropWhile_head_false goIsSpace a.reverse c rest (hb ▸ hc)
  rw [hr]
  show ((b.reverse.dropWhile goIsSpace).reverse.dropWhile goIsSpace).reverse
      = b.reverse
  rw [hfrontfix, hbackfix]
  simp

lemma char_toNat_ofNat (n : Nat) (h : n.isValidChar) :
    (Char.ofNat n).toNat = n := by
  rw [Char.ofNat, dif_pos h]
  rfl

lemma charToLower_toNat (c : Char) :
    c.toLower.toNat =
      if 65 ≤ c.toNat ∧ c.toNat ≤ 90 then c.toNat + 32 else c.toNat := by
  by_cases h : 65 ≤ c.toNat ∧ c.toNat ≤ 90
  · rw [if_pos h]
    show (if c.toNat ≥ 65 ∧ c.toNat ≤ 90 then Char.ofNat (c.toNat + 32)
      else c).toNat = c.toNat + 32
    rw [if_pos h]
    exact char_toNat_ofNat _ (Or.inl (by omega))
  · rw [if_neg h]
    show (if c.toNat ≥ 65 ∧ c.toNat ≤ 90 then Char.ofNat (c.toNat + 32)
      else c).toNat = c.toNat
    rw [if_neg h]

lemma charToLower_eq_self (c : Char) (h : ¬(65 ≤ c.toNat ∧ c.toNat ≤ 90)) :
    c.toLower = c := by
  show (if c.toNat ≥ 65 ∧ c.toNat ≤ 90 then Char.ofNat (c.toNat + 32) else c) = c
  rw [if_neg h]

lemma charToLower_idem (c : Char) : c.toLower.toLower = c.toLower := by
  apply charToLower_eq_self
  rw [charToLower_toNat]
  by_cases h : 65 ≤ c.toNat ∧ c.toNat ≤ 90
  · rw [if_pos h]; omega
  · rw [if_neg h]; exact h

lemma charToLower_isSpace (c : Char) : goIsSpace c.toLower = goIsSpace c := by
  by_cases h : 65 ≤ c.toNat ∧ c.toNat ≤ 90
  · have h1 : c.toLower.toNat = c.toNat + 32 := by rw [charToLower_toNat, if_pos h]
    have h2 : goIsSpace c.toLower = false := by
      simp only [goIsSpace, h1, decide_eq_false_iff_not]
      omega
    have h3 : goIsSpace c = false := by
      simp only [goIsSpace, decide_eq_false_iff_not]
      omega
    rw [h2, h3]
  · rw [charToLower_eq_self c h]

lemma goToLower_idem (s : Str) : goToLower (goToLower s) = goToLower s := by
  simp only [goToLower, List.map_map]
  exact List.map_congr_left fun c _ => charToLower_idem c

/-- Lowercasing commutes with trimming, since case folding preserves the
space classification of every character. -/
lemma goTrimSpace_goToLower (s : Str) :
    goTrimSpace (goToLower s) = goToLower (goTrimSpace s) := by
  have hp : (goIsSpace ∘ Char.toLower) = goIsSpace := funext charToLower_isSpace
  simp only [goTrimSpace, goToLower, List.dropWhile_map, hp, ← List.map_reverse]

/-- The per-tag normalization step shared by `NormalizeInput`, `UpdateTask`
and `Query`: `strings.ToLower(strings.TrimSpace(t))`. -/
def normTag (t : Str) : Str :=
  goToLower (goTrimSpace t)

lemma normTag_idem (t : Str) : normTag (normTag t) = normTag t := by
  unfold normTag
  rw [goTrimSpace_goToLower, goTrimSpace_idem, goToLower_idem]

/-- The tag-normalization loop of the Go code (lowercase, trim, drop
empties, deduplicate keeping the first occurrence), with the `seen` set
made explicit. -/
def goNormTagsAux (seen : List Str) : List Str → List Str
  | [] => []
  | t :: ts =>
    if normTag t = [] then goNormTagsAux seen ts
    else if normTag t ∈ seen then goNormTagsAux seen ts
    else normTag t :: goNormTagsAux (normTag t :: seen) ts

def goNormTags (ts : List Str) : List Str :=
  goNormTagsAux [] ts

/-- `sort.Strings` of Go: lexicographic sort (byte order on UTF-8 equals
the character order used here). -/
def sortStrings (ts : List Str) : List Str :=
  List.insertionSort (· ≤ ·) ts

lemma goNormTagsAux_mem (seen : List Str) (ts : List Str) (x : Str) :
    x ∈ goNormTagsAux seen ts ↔
      x ∉ seen ∧ x ≠ [] ∧ x ∈ ts.map normTag := by
  induction ts generalizing seen with
  | nil => simp [goNormTagsAux]
  | cons t ts ih =>
    by_cases h0 : normTag t = []
    · simp only [goNormTagsAux, if_pos h0, ih, List.map_cons, List.mem_cons]
      constructor
      · rintro ⟨hs, hne, hmem⟩; exact ⟨hs, hne, Or.inr hmem⟩
      · rintro ⟨hs, hne, hmem | hmem⟩
        · exact absurd (hmem ▸ h0) hne
        · exact ⟨hs, hne, hmem⟩
    · by_cases hseen : normTag t ∈ seen
      · simp only [goNormTagsAux, if_neg h0, if_pos hseen, ih,
          List.map_cons, List.mem_cons]
        constructor
        · rintro ⟨hs, hne, hmem⟩; exact ⟨hs, hne, Or.inr hmem⟩
        · rintro ⟨hs, hne, hmem | hmem⟩
          · exact absurd (hmem ▸ hseen) hs
          · exact ⟨hs, hne, hmem⟩
      · simp only [goNormTagsAux, if_neg h0, if_neg hseen, List.mem_cons, ih,
          List.map_cons, List.mem_cons, not_or]
        constructor
        · rintro (rfl | ⟨⟨hs1, hs2⟩, hne, hmem⟩)
          · exact ⟨hseen, h0, Or.inl rfl⟩
          · exact ⟨hs2, hne, Or.inr hmem⟩
        · rintro ⟨hs, hne, rfl | hmem⟩
          · exact Or.inl rfl
          · by_cases hx : x = normTag t
            · exact Or.inl hx
            · exact Or.inr ⟨⟨hx, hs⟩, hne, hmem⟩

lemma goNormTagsAux_nodup (seen : List Str) (ts : List Str) :
    (goNormTagsAux seen ts).Nodup := by
  induction ts generalizing seen with
  | nil => simp [goNormTagsAux]
  | cons t ts ih =>
    by_cases h0 : normTag t = []
    · simpa [goNormTagsAux, h0] using ih seen
    · by_cases hseen : normTag t ∈ seen
      · simpa [goNormTagsAux, h0, hseen] using ih seen
      · simp only [goNormTagsAux, if_neg h0, if_neg hseen, List.nodup_cons]
        refine ⟨fun hmem => ?_, ih _⟩
        exact ((goNormTagsAux_mem _ _ _).mp hmem).1 (by simp)

lemma goNormTags_mem (ts : List Str) (x : Str) :
    x ∈ goNormTags ts ↔ x ≠ [] ∧ x ∈ ts.map normTag := by
  simp [goNormTags, goNormTagsAux_mem]

lemma goNormTags_nodup (ts : List Str) : (goNormTags ts).Nodup :=
  goNormTagsAux_nodup [] ts

/-- Two duplicate-free lists with the same members sort identically. -/
lemma sortStrings_eq_of_mem_iff (l1 l2 : List Str) (h1 : l1.Nodup)
    (h2 : l2.Nodup) (h : ∀ x, x ∈ l1 ↔ x ∈ l2) :
    sortStrings l1 = sortStrings l2 := by
  have hperm : l1.Perm l2 := by
    refine List.perm_of_nodup_nodup_toFinset_eq h1 h2 ?_
    ext x
    simp [List.mem_toFinset, h x]
  have hp : (sortStrings l1).Perm (sortStrings l2) :=
    ((List.perm_insertionSort _ l1).trans hperm).trans
      (List.perm_insertionSort _ l2).symm
  exact List.eq_of_perm_of_sorted hp
    (List.sorted_insertionSort _ l1) (List.sorted_insertionSort _ l2)

/-- Sorted normalization is invariant under everything that preserves the
set of non-empty normalized tags. -/
lemma sortStrings_goNormTags_congr (ts1 ts2 : List Str)
    (h : ∀ x, (x ∈ ts1.map normTag ∧ x ≠ []) ↔ (x ∈ ts2.map normTag ∧ x ≠ [])) :
    sortStrings (goNormTags ts1) = sortStrings (goNormTags ts2) := by
  refine sortStrings_eq_of_mem_iff _ _ (goNormTags_nodup ts1)
    (goNormTags_nodup ts2) fun x => ?_
  rw [goNormTags_mem, goNormTags_mem]
  constructor
  · rintro ⟨hne, hmem⟩
    exact ⟨hne, ((h x).mp ⟨hmem, hne⟩).1⟩
  · rintro ⟨hne, hmem⟩
    exact ⟨hne, ((h x).mpr ⟨hmem, hne⟩).1⟩

/-! JSON serialization of the canonical form, mirroring Go `encoding/json`
for the `canonical` struct (string escaping with HTML escaping on, fixed
struct field order, a non-nil `[]string` for tags). -/

def lbraceChar : Char := Char.ofNat 123
def rbraceChar : Char := Char.ofNat 125

def hexDigitChar (n : Nat) : Char :=
  if n < 10 then Char.ofNat (48 + n) else Char.ofNat (87 + n)

/-- Go `encoding/json` escaping for one character (`escapeHTML = true`). -/
def jsonEscapeChar (c : Char) : Str :=
  if c = '\\' then ['\\', '\\']
  else if c = '"' then ['\\', '"']
  else if c = '\n' then ['\\', 'n']
  else if c = '\r' then ['\\', 'r']
  else if c = '\t' then ['\\', 't']
  else if c.toNat < 0x20 || c = '<' || c = '>' || c = '&' then
    ['\\', 'u', '0', '0', hexDigitChar (c.toNat / 16 % 16), hexDigitChar (c.toNat % 16)]
  else if c.toNat = 0x2028 || c.toNat = 0x2029 then
    ['\\', 'u', '2', '0', '2', hexDigitChar (c.toNat % 16)]
  else [c]

def jsonString (s : Str) : Str :=
  '"' :: (s.flatMap jsonEscapeChar) ++ ['"']

def joinComma : List Str → Str
  | [] => []
  | [l] => l
  | l :: ls => l ++ ',' :: joinComma ls

def jsonStrList (ts : List Str) : Str :=
  '[' :: joinComma (ts.map jsonString) ++ [']']

def intToStr (i : Int) : Str :=
  match i with
  | .ofNat n => Nat.toDigits 10 n
  | .negSucc n => '-' :: Nat.toDigits 10 (n + 1)

/-- The `canonical` struct of `normalize.go`. -/
structure Canonical where
  Text : Str
  Tags : List Str
  Priority : Int
  EstimateMinutes : Int
deriving DecidableEq

/-- `json.Marshal` of the `canonical` struct: the four fields in struct
order with their JSON tags. -/
def jsonMarshalCanonical (c : Canonical) : Str :=
  lbraceChar :: jsonString "text".data ++ ':' :: jsonString c.Text
    ++ ',' :: jsonString "tags".data ++ ':' :: jsonStrList c.Tags
    ++ ',' :: jsonString "priority".data ++ ':' :: intToStr c.Priority
    ++ ',' :: jsonString "estimate_minutes".data ++ ':' :: intToStr c.EstimateMinutes
    ++ [rbraceChar]

/-- UTF-8 encoding of one character. -/
def utf8EncodeChar (c : Char) : List Nat :=
  let n := c.toNat
  if n < 0x80 then [n]
  else if n < 0x800 then [0xC0 + n / 0x40, 0x80 + n % 0x40]
  else if n < 0x10000 then
    [0xE0 + n / 0x1000, 0x80 + n / 0x40 % 0x40, 0x80 + n % 0x40]
  else
    [0xF0 + n / 0x40000, 0x80 + n / 0x1000 % 0x40, 0x80 + n / 0x40 % 0x40,
      0x80 + n % 0x40]

def strBytes (s : Str) : List Nat :=
  s.flatMap utf8EncodeChar

/-! SHA-512 (`crypto/sha512.Sum512`), FIPS 180-4, on byte lists, with
64-bit words as naturals reduced mod `2 ^ 64`. -/

def add64 (a b : Nat) : Nat := (a + b) % 2 ^ 64

def rotr64 (r x : Nat) : Nat := x / 2 ^ r + x % 2 ^ r * 2 ^ (64 - r)

def shr64 (r x : Nat) : Nat := x / 2 ^ r

def not64 (x : Nat) : Nat := x ^^^ (2 ^ 64 - 1)

def bSigma0 (x : Nat) : Nat := rotr64 28 x ^^^ rotr64 34 x ^^^ rotr64 39 x
def bSigma1 (x : Nat) : Nat := rotr64 14 x ^^^ rotr64 18 x ^^^ rotr64 41 x
def sSigma0 (x : Nat) : Nat := rotr64 1 x ^^^ rotr64 8 x ^^^ shr64 7 x
def sSigma1 (x : Nat) : Nat := rotr64 19 x ^^^ rotr64 61 x ^^^ shr64 6 x
def chFn (e f g : Nat) : Nat := (e &&& f) ^^^ (not64 e &&& g)
def majFn (a b c : Nat) : Nat := (a &&& b) ^^^ (a &&& c) ^^^ (b &&& c)

def sha512K : List Nat :=
  [4794697086780616226, 8158064640168781261,
   13096744586834688815, 16840607885511220156,
   4131703408338449720, 6480981068601479193,
   10538285296894168987, 12329834152419229976,
   15566598209576043074, 1334009975649890238,
   2608012711638119052, 6128411473006802146,
   8268148722764581231, 9286055187155687089,
   11230858885718282805, 13951009754708518548,
   16472876342353939154, 17275323862435702243,
   1135362057144423861, 2597628984639134821,
   3308224258029322869, 5365058923640841347,
   6679025012923562964, 8573033837759648693,
   10970295158949994411, 12119686244451234320,
   12683024718118986047, 13788192230050041572,
   14330467153632333762, 15395433587784984357,
   489312712824947311, 1452737877330783856,
   2861767655752347644, 3322285676063803686,
   5560940570517711597, 5996557281743188959,
   7280758554555802590, 8532644243296465576,
   9350256976987008742, 10552545826968843579,
   11727347734174303076, 12113106623233404929,
   14000437183269869457, 14369950271660146224,
   15101387698204529176, 15463397548674623760,
   17586052441742319658, 1182934255886127544,
   1847814050463011016, 2177327727835720531,
   2830643537854262169, 3796741975233480872,
   4115178125766777443, 5681478168544905931,
   6601373596472566643, 7507060721942968483,
   8399075790359081724, 8693463985226723168,
   9568029438360202098, 10144078919501101548,
   10430055236837252648, 11840083180663258601,
   13761210420658862357, 14299343276471374635,
   14566680578165727644, 15097957966210449927,
   16922976911328602910, 17689382322260857208,
   500013540394364858, 748580250866718886,
   1242879168328830382, 1977374033974150939,
   2944078676154940804, 3659926193048069267,
   4368137639120453308, 4836135668995329356,
   5532061633213252278, 6448918945643986474,
   6902733635092675308, 7801388544844847127]

structure Sha512State where
  a : Nat
  b : Nat
  c : Nat
  d : Nat
  e : Nat
  f : Nat
  g : Nat
  h : Nat

def sha512Init : Sha512State :=
  ⟨7640891576956012808, 13503953896175478587, 4354685564936845355,
   11912009170470909681, 5840696475078001361, 11170449401992604703,
   2270897969802886507, 6620516959819538809⟩

/-- `k` bytes of `n`, big-endian. -/
def natToBytesBE : Nat → Nat → List Nat
  | 0, _ => []
  | k + 1, n => natToBytesBE k (n / 256) ++ [n % 256]

/-- SHA-512 padding: `0x80`, zeros to 112 mod 128, 16-byte big-endian bit
length. -/
def sha512Pad (msg : List Nat) : List Nat :=
  msg ++ 0x80 :: List.replicate ((128 - (msg.length + 17) % 128) % 128) 0
    ++ natToBytesBE 16 (msg.length * 8)

def chunkBytesF : Nat → Nat → List Nat → List (List Nat)
  | 0, _, _ => []
  | fuel + 1, k, l =>
    if l = [] ∨ k = 0 then [] else l.take k :: chunkBytesF fuel k (l.drop k)

/-- Split into `k`-byte chunks (the fuel, one unit per chunk at least,
never runs out for `k > 0`). -/
def chunkBytes (k : Nat) (l : List Nat) : List (List Nat) :=
  chunkBytesF l.length k l

def bytesToWord (bs : List Nat) : Nat :=
  bs.foldl (fun acc b => acc * 256 + b) 0

/-- The 16 message words of one 128-byte block. -/
def msgWords (block : List Nat) : List Nat :=
  (chunkBytes 8 block).map bytesToWord

def extendWF : Nat → List Nat → List Nat
  | 0, w => w
  | fuel + 1, w =>
    if 80 ≤ w.length then w
    else
      extendWF fuel (w ++ [add64 (add64 (sSigma1 (w.getD (w.length - 2) 0))
        (w.getD (w.length - 7) 0))
        (add64 (sSigma0 (w.getD (w.length - 15) 0)) (w.getD (w.length - 16) 0))])

/-- Extend the message schedule to 80 words (the fuel of 80 covers the 64
extension steps). -/
def extendW (w : List Nat) : List Nat :=
  extendWF 80 w

def roundStep (wt kt : Nat) (s : Sha512State) : Sha512State :=
  let t1 := add64 s.h (add64 (bSigma1 s.e) (add64 (chFn s.e s.f s.g) (add64 kt wt)))
  let t2 := add64 (bSigma0 s.a) (majFn s.a s.b s.c)
  ⟨add64 t1 t2, s.a, s.b, s.c, add64 s.d t1, s.e, s.f, s.g⟩

def compressBlock (st : Sha512State) (block : List Nat) : Sha512State :=
  let w := extendW (msgWords block)
  let fin := (List.range 80).foldl
    (fun s t => roundStep (w.getD t 0) (sha512K.getD t 0) s) st
  ⟨add64 st.a fin.a, add64 st.b fin.b, add64 st.c fin.c, add64 st.d fin.d,
   add64 st.e fin.e, add64 st.f fin.f, add64 st.g fin.g, add64 st.h fin.h⟩

def sha512 (msg : List Nat) : List Nat :=
  let st := (chunkBytes 128 (sha512Pad msg)).foldl compressBlock sha512Init
  natToBytesBE 8 st.a ++ natToBytesBE 8 st.b ++ natToBytesBE 8 st.c ++
    natToBytesBE 8 st.d ++ natToBytesBE 8 st.e ++ natToBytesBE 8 st.f ++
    natToBytesBE 8 st.g ++ natToBytesBE 8 st.h

/-- `hex.EncodeToString` (the input bytes are always below 256; the extra
`% 16` on the high digit is then the identity). -/
def hexEncode (bs : List Nat) : Str :=
  bs.flatMap fun b => [hexDigitChar (b / 16 % 16), hexDigitChar (b % 16)]

/-- `TaskInput` of the Go sources. -/
structure TaskInput where
  Text : Str
  Tags : List Str
  Priority : Int
  EstimateMinutes : Int
deriving DecidableEq

/-- `NormalizeInput` of `normalize.go`: canonicalize the input and derive
the id as lowercase hex of SHA-512 over the canonical JSON. -/
def NormalizeInput (inp : TaskInput) : Canonical × Str :=
  let c : Canonical :=
    ⟨goTrimSpace inp.Text, sortStrings (goNormTags inp.Tags),
      inp.Priority, inp.EstimateMinutes⟩
  (c, hexEncode (sha512 (strBytes (jsonMarshalCanonical c))))

/-! The task record and the trailer parser. -/

/-- The `Task` struct. -/
structure Task where
  ID : Str
  Text : Str
  Done : Bool
  Tags : List Str
  Created : Str
  Priority : Int
  EstimateMinutes : Int
deriving DecidableEq

/-- A parsed Git-like trailer `Key: Value`. -/
structure Trailer where
  Key : Str
  Value : Str
deriving DecidableEq

/-- `trimBlankLines`: drop leading and trailing blank lines, rejoin. -/
def trimBlankLines (s : Str) : Str :=
  let kept := ((splitLines s).dropWhile (fun l => goTrimSpace l = [])).reverse
    |>.dropWhile (fun l => goTrimSpace l = []) |>.reverse
  joinLines kept

/-- `isValidKey`: non-empty, only letters, digits and hyphens. -/
def isValidKey (s : Str) : Bool :=
  !s.isEmpty && s.all fun c =>
    ('a' ≤ c && c ≤ 'z') || ('A' ≤ c && c ≤ 'Z') || ('0' ≤ c && c ≤ '9') || c = '-'

/-- Split at the first colon, as the scanning loop of `parseTrailer` does. -/
def findColonSplit : Str → Option (Str × Str)
  | [] => none
  | c :: rest =>
    if c = ':' then some ([], rest)
    else (findColonSplit rest).map fun kv => (c :: kv.1, kv.2)

/-- `parseTrailer`: `Key: Value` with the key validated and the spaces and
tabs after the colon skipped. -/
def parseTrailer (s : Str) : Option Trailer :=
  match findColonSplit s with
  | none => none
  | some (key, after) =>
    if isValidKey key then
      some ⟨key, after.dropWhile fun c => c = ' ' || c = '\t'⟩
    else none

/-- `trailerRegionBounds`: `(endIndexExclusive, startIndexInclusive)` of the
trailer region, `(n, n)` when there is none.  The downward scans of the Go
code are expressed with `takeWhile` on the reversed prefix. -/
def trailerRegionBounds (text : Str) : Nat × Nat :=
  let lines := splitLines text
  let n := lines.length
  let tb := (lines.reverse.takeWhile fun l => goTrimSpace l = []).length
  if tb = n then (n, n)
  else
    let endIdx := n - 1 - tb
    let run := ((lines.take (endIdx + 1)).reverse.takeWhile
      fun l => goTrimSpace l ≠ []).length
    if run = endIdx + 1 then (n, n)
    else
      let k := endIdx - run
      let start := k + 1 +
        ((lines.drop (k + 1)).takeWhile fun l => goTrimSpace l = []).length
      (endIdx + 1, start)

/-- `trailerBlock`: `(drops, trailers, ok)` for the trailer region. -/
def trailerBlock (text : Str) : List Str × List Trailer × Bool :=
  let lines := splitLines text
  let b := trailerRegionBounds text
  if b.1 ≤ b.2 then ([], [], false)
  else
    let region := (lines.drop b.2).take (b.1 - b.2)
    (region.filter (fun l => (parseTrailer l).isNone && goTrimSpace l ≠ []),
      region.filterMap parseTrailer, true)

/-- `Task.Details`: text after the first line, with the trailer region cut
off and blank lines trimmed at both ends. -/
def Task.Details (t : Task) : Str :=
  let lines := splitLines t.Text
  if lines.length ≤ 1 then []
  else
    let tb := trailerBlock t.Text
    let e := if tb.2.2 && (tb.2.1 ≠ [] || tb.1 ≠ []) then
      (trailerRegionBounds t.Text).2 else lines.length
    trimBlankLines (joinLines ((lines.drop 1).take (e - 1)))

/-- `Task.Trailers`: the parsed trailers, in display order. -/
def Task.Trailers (t : Task) : List Trailer :=
  (trailerBlock t.Text).2.1

/-- `Task.TrailerDrops`: the malformed lines of the trailer region. -/
def Task.TrailerDrops (t : Task) : List Str :=
  (trailerBlock t.Text).1

/-! The store: a state-passing model of `nats_store.go`.

The two NATS KV buckets are association lists with per-key revision
counters.  Entity values are stored as `Task` records (the JSON round trip
of the Go code is the identity on well-formed entities); tag-index values
are raw newline-joined strings, as on the wire.  `tagsFail` injects a
substrate failure into every tag-bucket call, modelling the backend
becoming unreachable between the entity write and the index write. -/

inductive GoErr
  | keyNotFound | keyExists | conflict | substrate
  | notFound | ambiguous | emptyPrefix
deriving DecidableEq

structure TaskEntry where
  task : Task
  rev : Nat
deriving DecidableEq

structure TagEntry where
  val : Str
  rev : Nat
deriving DecidableEq

structure StoreState where
  tasks : List (Str × TaskEntry)
  tags : List (Str × TagEntry)
  tagsFail : Bool
deriving DecidableEq

def alLookup {β : Type} : List (Str × β) → Str → Option β
  | [], _ => none
  | (k, v) :: rest, key => if k = key then some v else alLookup rest key

def alPut {β : Type} : List (Str × β) → Str → β → List (Str × β)
  | [], key, v => [(key, v)]
  | (k, w) :: rest, key, v =>
    if k = key then (key, v) :: rest else (k, w) :: alPut rest key v

def alRemove {β : Type} (l : List (Str × β)) (key : Str) : List (Str × β) :=
  l.filter fun p => ¬p.1 = key

/-- Entity fetch.  The model injects faults only into the tag bucket
(`tagsFail`), so the Go Get's forwarded substrate and decode errors are
elided here: the entity bucket is modelled as healthy throughout, and no
theorem below claims anything about entity-bucket I/O failures. -/
def kvTasksGet (s : StoreState) (k : Str) : Except GoErr TaskEntry :=
  match alLookup s.tasks k with
  | none => .error .keyNotFound
  | some e => .ok e

def kvTasksCreate (s : StoreState) (k : Str) (t : Task) :
    Except GoErr StoreState :=
  match alLookup s.tasks k with
  | some _ => .error .keyExists
  | none => .ok { s with tasks := s.tasks ++ [(k, ⟨t, 1⟩)] }

def kvTasksPut (s : StoreState) (k : Str) (t : Task) : StoreState :=
  match alLookup s.tasks k with
  | some e => { s with tasks := alPut s.tasks k ⟨t, e.rev + 1⟩ }
  | none => { s with tasks := s.tasks ++ [(k, ⟨t, 1⟩)] }

/-- Entity delete, healthy-bucket model: the Go Delete's substrate error
is elided, like the other entity-bucket error paths. -/
def kvTasksDelete (s : StoreState) (k : Str) : StoreState :=
  { s with tasks := alRemove s.tasks k }

def kvTasksKeys (s : StoreState) : List Str :=
  s.tasks.map (·.1)

def kvTagsGet (s : StoreState) (k : Str) : Except GoErr TagEntry :=
  if s.tagsFail then .error .substrate
  else match alLookup s.tags k with
  | none => .error .keyNotFound
  | some e => .ok e

def kvTagsCreate (s : StoreState) (k : Str) (v : Str) :
    Except GoErr StoreState :=
  if s.tagsFail then .error .substrate
  else match alLookup s.tags k with
  | some _ => .error .keyExists
  | none => .ok { s with tags := s.tags ++ [(k, ⟨v, 1⟩)] }

def kvTagsUpdate (s : StoreState) (k : Str) (v : Str) (rev : Nat) :
    Except GoErr StoreState :=
  if s.tagsFail then .error .substrate
  else match alLookup s.tags k with
  | none => .error .conflict
  | some e =>
    if e.rev = rev then .ok { s with tags := alPut s.tags k ⟨v, e.rev + 1⟩ }
    else .error .conflict

def kvTagsPut (s : StoreState) (k : Str) (v : Str) : Except GoErr StoreState :=
  if s.tagsFail then .error .substrate
  else match alLookup s.tags k with
  | some e => .ok { s with tags := alPut s.tags k ⟨v, e.rev + 1⟩ }
  | none => .ok { s with tags := s.tags ++ [(k, ⟨v, 1⟩)] }

def kvTagsDelete (s : StoreState) (k : Str) : Except GoErr StoreState :=
  if s.tagsFail then .error .substrate
  else .ok { s with tags := alRemove s.tags k }

def kvTagsKeys (s : StoreState) : Except GoErr (List Str) :=
  if s.tagsFail then .error .substrate else .ok (s.tags.map (·.1))

/-- `appendTagID`.  In this sequential model the create-after-get race of
the Go code cannot occur, so its recursive retry on `ErrKeyExists` is
unreachable and elided. -/
def appendTagID (s : StoreState) (tag id : Str) : Except GoErr StoreState :=
  match kvTagsGet s tag with
  | .error .keyNotFound => kvTagsCreate s tag id
  | .error e => .error e
  | .ok e =>
    let lines := splitLines e.val
    if lines.any (fun l => goTrimSpace l = id) then .ok s
    else kvTagsUpdate s tag (goTrimSpace (joinLines (lines ++ [id]))) e.rev

/-- `removeTagID`. -/
def removeTagID (s : StoreState) (tag id : Str) : Except GoErr StoreState :=
  match kvTagsGet s tag with
  | .error .keyNotFound => .ok s
  | .error e => .error e
  | .ok e =>
    let lines := splitLines e.val
    let out := (lines.filter fun l =>
      ¬(goTrimSpace l = id ∨ goTrimSpace l = [])).map goTrimSpace
    kvTagsUpdate s tag (goTrimSpace (joinLines out)) e.rev

def GetTask (s : StoreState) (id : Str) : Except GoErr (Task × Nat) :=
  match kvTasksGet s id with
  | .error .keyNotFound => .error .notFound
  | .error e => .error e
  | .ok e => .ok (e.task, e.rev)

/-- `putTaskCAS`: despite its name and `rev` parameter, the Go body calls
the unconditional `Put` and never consults `rev`; the model mirrors that.
The Put's own substrate error is elided with the rest of the entity
bucket's error paths. -/
def putTaskCAS (s : StoreState) (id : Str) (t : Task) (rev : Nat) :
    Except GoErr StoreState :=
  .ok (kvTasksPut s id t)

def appendTags (s : StoreState) (tags : List Str) (id : Str) :
    Except GoErr StoreState :=
  match tags with
  | [] => .ok s
  | tag :: rest =>
    match appendTagID s tag id with
    | .error e => .error e
    | .ok s1 => appendTags s1 rest id

/-- `CreateTask`: idempotent creation.  `now` carries the RFC3339 clock
reading of `time.Now().UTC()`. -/
def CreateTask (s : StoreState) (now : Str) (inp : TaskInput) :
    Except GoErr (Task × Bool × StoreState) :=
  let c := (NormalizeInput inp).1
  let id := (NormalizeInput inp).2
  let t : Task := ⟨id, c.Text, false, c.Tags, now, c.Priority, c.EstimateMinutes⟩
  match kvTasksCreate s id t with
  | .error .keyExists =>
    match kvTasksGet s id with
    | .error e => .error e
    | .ok e => .ok (e.task, true, s)
  | .error e => .error e
  | .ok s1 =>
    match appendTags s1 t.Tags t.ID with
    | .error e => .error e
    | .ok s2 => .ok (t, false, s2)

structure UpdateSet where
  Text : Option Str := none
  Done : Option Bool := none
  Tags : Option (List Str) := none
  Priority : Option Int := none

/-- Keep the state when a discarded (`_ =`) call fails. -/
def orKeep (st : StoreState) (r : Except GoErr StoreState) : StoreState :=
  match r with
  | .ok st1 => st1
  | .error _ => st

def dedupFirstAux (seen : List Str) : List Str → List Str
  | [] => []
  | x :: xs =>
    if x ∈ seen then dedupFirstAux seen xs
    else x :: dedupFirstAux (x :: seen) xs

def dedupFirst (l : List Str) : List Str :=
  dedupFirstAux [] l

/-- `UpdateTask`: sparse patch, unconditional write-back, tag-index diff
with the maintenance errors discarded (`_ = s.appendTagID`,
`_ = s.removeTagID`).  The Go set iteration is modelled in first-occurrence
order. -/
def UpdateTask (s : StoreState) (id : Str) (set : UpdateSet) :
    Except GoErr (Task × StoreState) :=
  match GetTask s id with
  | .error e => .error e
  | .ok (before, rev) =>
    let after : Task :=
      { before with
        Text := match set.Text with | some tx => goTrimSpace tx | none => before.Text
        Done := match set.Done with | some d => d | none => before.Done
        Tags := match set.Tags with | some ts => goNormTags ts | none => before.Tags
        Priority := match set.Priority with | some p => p | none => before.Priority }
    match putTaskCAS s id after rev with
    | .error e => .error e
    | .ok s1 =>
      let added := (dedupFirst after.Tags).filter fun tg => tg ∉ before.Tags
      let removed := (dedupFirst before.Tags).filter fun tg => tg ∉ after.Tags
      let s2 := added.foldl (fun st tg => orKeep st (appendTagID st tg id)) s1
      let s3 := removed.foldl (fun st tg => orKeep st (removeTagID st tg id)) s2
      .ok (after, s3)

/-- `DeleteTask`: delete the entity, then drop its id from every tag index
entry, discarding the index errors (`_ = s.removeTagID`). -/
def DeleteTask (s : StoreState) (id : Str) : Except GoErr (Str × StoreState) :=
  match GetTask s id with
  | .error e => .error e
  | .ok (t, _) =>
    let s1 := kvTasksDelete s id
    let s2 := t.Tags.foldl (fun st tg => orKeep st (removeTagID st tg id)) s1
    .ok (t.ID, s2)

def CloseTask (s : StoreState) (id : Str) :
    Except GoErr (Task × Bool × StoreState) :=
  match GetTask s id with
  | .error e => .error e
  | .ok (t, rev) =>
    if t.Done then .ok (t, false, s)
    else
      match putTaskCAS s id { t with Done := true } rev with
      | .error e => .error e
      | .ok s1 => .ok ({ t with Done := true }, true, s1)

def ReopenTask (s : StoreState) (id : Str) :
    Except GoErr (Task × Bool × StoreState) :=
  match GetTask s id with
  | .error e => .error e
  | .ok (t, rev) =>
    if !t.Done then .ok (t, false, s)
    else
      match putTaskCAS s id { t with Done := false } rev with
      | .error e => .error e
      | .ok s1 => .ok ({ t with Done := false }, true, s1)

def statusOpen : Str := "open".data
def statusClosed : Str := "closed".data

def statusSkip (fil : Str) (t : Task) : Bool :=
  fil ≠ [] && ((fil = statusOpen && t.Done) || (fil = statusClosed && !t.Done))

/-- The fetch loop of `List` over a tag entry's id lines: trim, skip
blanks, silently skip ids that no longer resolve. -/
def listByIds (s : StoreState) (fil : Str) : List Str → List Task
  | [] => []
  | id :: rest =>
    let idt := goTrimSpace id
    if idt = [] then listByIds s fil rest
    else match GetTask s idt with
    | .error _ => listByIds s fil rest
    | .ok (t, _) =>
      if statusSkip fil t then listByIds s fil rest
      else t :: listByIds s fil rest

/-- The full-scan loop of `List`. -/
def scanTasks (s : StoreState) (fil : Str) : List Str → List Task
  | [] => []
  | k :: rest =>
    if k = [] then scanTasks s fil rest
    else match GetTask s k with
    | .error _ => scanTasks s fil rest
    | .ok (t, _) =>
      if statusSkip fil t then scanTasks s fil rest
      else t :: scanTasks s fil rest

/-- `List`. -/
def ListTasks (s : StoreState) (tag : Str) (fil : Str) :
    Except GoErr (List Task) :=
  if tag ≠ [] then
    match kvTagsGet s (goToLower (goTrimSpace tag)) with
    | .error .keyNotFound => .ok []
    | .error e => .error e
    | .ok e => .ok (listByIds s fil (splitLines e.val))
  else .ok (scanTasks s fil (kvTasksKeys s))

/-- The `readTag` closure of `Query`: the id set of one tag, as a deduped
list in line order. -/
def readTag (s : StoreState) (tag : Str) : Except GoErr (List Str) :=
  match kvTagsGet s tag with
  | .error .keyNotFound => .ok []
  | .error e => .error e
  | .ok e =>
    .ok (dedupFirst (((splitLines e.val).map goTrimSpace).filter fun id => id ≠ []))

def unionAux (s : StoreState) (acc : List Str) : List Str → Except GoErr (List Str)
  | [] => .ok acc
  | tg :: rest =>
    match readTag s tg with
    | .error e => .error e
    | .ok ids => unionAux s (acc ++ ids.filter fun id => id ∉ acc) rest

def interAux (s : StoreState) (acc : List Str) : List Str → Except GoErr (List Str)
  | [] => .ok acc
  | tg :: rest =>
    match readTag s tg with
    | .error e => .error e
    | .ok ids => interAux s (acc.filter fun id => id ∈ ids) rest

/-- The fetch loop of `Query`: skip stale ids, stop once `limit` is
reached (for positive limits). -/
def fetchLimited (s : StoreState) (limit : Int) : List Str → List Task → List Task
  | [], out => out
  | id :: rest, out =>
    match GetTask s id with
    | .error _ => fetchLimited s limit rest out
    | .ok (t, _) =>
      if limit > 0 ∧ (out.length + 1 : Int) ≥ limit then out ++ [t]
      else fetchLimited s limit rest (out ++ [t])

/-- `Query`: union over `anyTags` (or the whole id universe), narrowed by
every `allTags` member, fetched up to `limit`. -/
def Query (s : StoreState) (anyT allT : List Str) (limit : Int) :
    Except GoErr (List Task) :=
  let anyN := goNormTags anyT
  let allN := goNormTags allT
  match (if anyN = [] then .ok (dedupFirst ((kvTasksKeys s).filter fun k => k ≠ []))
    else unionAux s [] anyN) with
  | .error e => .error e
  | .ok union =>
    match interAux s union allN with
    | .error e => .error e
    | .ok inter => .ok (fetchLimited s limit inter [])

def accAdd (acc : List (Str × List Str)) (tag id : Str) :
    List (Str × List Str) :=
  match alLookup acc tag with
  | some ids => alPut acc tag (ids ++ [id])
  | none => acc ++ [(tag, [id])]

def accTaskTags (acc : List (Str × List Str)) (t : Task) :
    List (Str × List Str) :=
  t.Tags.foldl
    (fun a tg =>
      let tgn := goToLower (goTrimSpace tg)
      if tgn = [] then a else accAdd a tgn t.ID)
    acc

/-- The entity scan of `RebuildIndex`, accumulating tag → ids in
first-appearance order. -/
def rebuildAcc (s : StoreState) : List Str → List (Str × List Str) →
    List (Str × List Str)
  | [], acc => acc
  | k :: rest, acc =>
    if k = [] then rebuildAcc s rest acc
    else match GetTask s k with
    | .error _ => rebuildAcc s rest acc
    | .ok (t, _) => rebuildAcc s rest (accTaskTags acc t)

def writeAcc (s : StoreState) : List (Str × List Str) → Except GoErr StoreState
  | [] => .ok s
  | (tag, ids) :: rest =>
    match kvTagsPut s tag (joinLines ids) with
    | .error e => .error e
    | .ok s1 => writeAcc s1 rest

/-- One step of the stale-key deletion pass of `RebuildIndex`: drop an old
tag key absent from the recomputed accumulator, discarding the `Delete`
error. -/
def staleStep (acc : List (Str × List Str)) (st : StoreState) (k : Str) :
    StoreState :=
  if k = [] then st
  else match alLookup acc k with
  | some _ => st
  | none => orKeep st (kvTagsDelete st k)

/-- `RebuildIndex`: recompute the whole tag index from the entity
collection, delete stale keys (errors from `Keys` and `Delete` are
discarded), overwrite every live key. -/
def RebuildIndex (s : StoreState) : Except GoErr StoreState :=
  let acc := rebuildAcc s (kvTasksKeys s) []
  let s1 := match kvTagsKeys s with
    | .error _ => s
    | .ok oldKeys => oldKeys.foldl (staleStep acc) s
  writeAcc s1 acc

/-- `matchPrefix`: Git-style resolution over a list of full ids, returning
`(id, candidates, error)` as the Go function does. -/
def matchPrefix (keys : List Str) (p : Str) : Str × List Str × Option GoErr :=
  let ms := keys.filter fun k => p.isPrefixOf k
  match ms with
  | [] => ([], [], some .notFound)
  | [k] => (k, [], none)
  | _ => ([], ms, some .ambiguous)

/-- `Resolve`: trim, reject the empty result with a distinct error, then
match over the key universe. -/
def Resolve (s : StoreState) (p : Str) : Str × List Str × Option GoErr :=
  let pt := goTrimSpace p
  if pt = [] then ([], [], some .emptyPrefix)
  else matchPrefix (kvTasksKeys s) pt

/-! Association-list and dedup toolkit. -/

lemma alLookup_append_right {β : Type} (l : List (Str × β)) (k : Str) (v : β)
    (h : alLookup l k = none) : alLookup (l ++ [(k, v)]) k = some v := by
  induction l with
  | nil => simp [alLookup]
  | cons p rest ih =>
    obtain ⟨k2, v2⟩ := p
    by_cases hp : k2 = k
    · simp [alLookup, hp] at h
    · simp only [alLookup, if_neg hp] at h
      simpa only [List.cons_append, alLookup, if_neg hp] using ih h

lemma alLookup_mem_nodup {β : Type} (l : List (Str × β)) (k : Str) (v : β)
    (hmem : (k, v) ∈ l) (hnd : (l.map (·.1)).Nodup) : alLookup l k = some v := by
  induction l with
  | nil => simp at hmem
  | cons p rest ih =>
    obtain ⟨k2, v2⟩ := p
    rcases List.mem_cons.mp hmem with h1 | h1
    · cases h1; simp [alLookup]
    · have hk : k2 ≠ k := by
        intro he
        subst he
        have hmem2 : k2 ∈ rest.map (·.1) := List.mem_map.mpr ⟨(k2, v), h1, rfl⟩
        simp only [List.map_cons, List.nodup_cons] at hnd
        exact hnd.1 hmem2
      simp only [alLookup, if_neg hk]
      simp only [List.map_cons, List.nodup_cons] at hnd
      exact ih h1 hnd.2

lemma alLookup_alPut_self {β : Type} (l : List (Str × β)) (k : Str) (v : β) :
    alLookup (alPut l k v) k = some v := by
  induction l with
  | nil => simp [alPut, alLookup]
  | cons p rest ih =>
    obtain ⟨k2, v2⟩ := p
    by_cases hp : k2 = k
    · simp [alPut, alLookup, hp]
    · simpa [alPut, alLookup, hp] using ih

lemma alLookup_alPut_other {β : Type} (l : List (Str × β)) (k k2 : Str) (v : β)
    (h : k ≠ k2) : alLookup (alPut l k v) k2 = alLookup l k2 := by
  induction l with
  | nil => simp [alPut, alLookup, h]
  | cons p rest ih =>
    obtain ⟨k3, v3⟩ := p
    by_cases hp : k3 = k
    · subst hp
      simp [alPut, alLookup, h]
    · simp only [alPut, if_neg hp, alLookup]
      by_cases hq : k3 = k2
      · simp [hq]
      · simp [hq, ih]

lemma alPut_mem {β : Type} (l : List (Str × β)) (k : Str) (v : β) :
    ∀ p ∈ alPut l k v, p = (k, v) ∨ p ∈ l := by
  induction l with
  | nil => simp [alPut]
  | cons q rest ih =>
    obtain ⟨k2, v2⟩ := q
    intro p hp
    by_cases he : k2 = k
    · simp only [alPut, if_pos he, List.mem_cons] at hp
      rcases hp with h1 | h1
      · exact Or.inl h1
      · exact Or.inr (by simp [h1])
    · simp only [alPut, if_neg he, List.mem_cons] at hp
      rcases hp with h1 | h1
      · exact Or.inr (by simp [h1])
      · rcases ih p h1 with h2 | h2
        · exact Or.inl h2
        · exact Or.inr (by simp [h2])

lemma alPut_keys_of_present {β : Type} (l : List (Str × β)) (k : Str) (v : β)
    (h : alLookup l k ≠ none) : (alPut l k v).map (·.1) = l.map (·.1) := by
  induction l with
  | nil => simp [alLookup] at h
  | cons q rest ih =>
    obtain ⟨k2, v2⟩ := q
    by_cases he : k2 = k
    · simp [alPut, he]
    · simp only [alLookup, if_neg he] at h
      simp [alPut, if_neg he, ih h]

lemma dedupFirstAux_mem (seen l : List Str) (x : Str) :
    x ∈ dedupFirstAux seen l ↔ x ∉ seen ∧ x ∈ l := by
  induction l generalizing seen with
  | nil => simp [dedupFirstAux]
  | cons y ys ih =>
    by_cases hy : y ∈ seen
    · simp only [dedupFirstAux, if_pos hy, ih, List.mem_cons]
      constructor
      · rintro ⟨hs, hm⟩; exact ⟨hs, Or.inr hm⟩
      · rintro ⟨hs, rfl | hm⟩
        · exact absurd hy hs
        · exact ⟨hs, hm⟩
    · simp only [dedupFirstAux, if_neg hy, List.mem_cons, ih, List.mem_cons,
        not_or]
      constructor
      · rintro (rfl | ⟨⟨h1, h2⟩, hm⟩)
        · exact ⟨hy, Or.inl rfl⟩
        · exact ⟨h2, Or.inr hm⟩
      · rintro ⟨hs, rfl | hm⟩
        · exact Or.inl rfl
        · by_cases hx : x = y
          · exact Or.inl hx
          · exact Or.inr ⟨⟨hx, hs⟩, hm⟩

lemma dedupFirstAux_nodup (seen l : List Str) : (dedupFirstAux seen l).Nodup := by
  induction l generalizing seen with
  | nil => simp [dedupFirstAux]
  | cons y ys ih =>
    by_cases hy : y ∈ seen
    · simpa [dedupFirstAux, hy] using ih seen
    · simp only [dedupFirstAux, if_neg hy, List.nodup_cons]
      exact ⟨fun hmem => ((dedupFirstAux_mem _ _ _).mp hmem).1 (by simp), ih _⟩

lemma dedupFirst_mem (l : List Str) (x : Str) : x ∈ dedupFirst l ↔ x ∈ l := by
  simp [dedupFirst, dedupFirstAux_mem]

lemma dedupFirst_nodup (l : List Str) : (dedupFirst l).Nodup :=
  dedupFirstAux_nodup [] l

/-! Clean tag-index values: the shape maintained by the store for a tag
entry (a newline join of distinct, whitespace-free, non-empty ids). -/

/-- The front character of a trimmed string is not white space. -/
lemma goTrimSpace_head_not_space (s : Str) :
    ∀ c r, goTrimSpace s = c :: r → goIsSpace c = false := by
  intro c r hc
  set a := s.dropWhile goIsSpace with ha
  set b := a.reverse.dropWhile goIsSpace with hb
  have hsuf : b <:+ a.reverse := hb ▸ List.dropWhile_suffix goIsSpace
  have hpre : b.reverse <+: a := by
    have h2 := (@List.reverse_prefix _ b a.reverse).mpr hsuf
    simpa using h2
  obtain ⟨t, ht⟩ := hpre
  have hbr : goTrimSpace s = b.reverse := rfl
  rw [hbr] at hc
  have hahead : a = c :: (r ++ t) := by rw [← ht, hc]; simp
  exact dropWhile_head_false goIsSpace s c (r ++ t) (ha ▸ hahead)

/-- The back character of a trimmed string is not white space. -/
lemma goTrimSpace_rev_head_not_space (s : Str) :
    ∀ c r, (goTrimSpace s).reverse = c :: r → goIsSpace c = false := by
  intro c r hc
  have hb : (goTrimSpace s).reverse
      = (s.dropWhile goIsSpace).reverse.dropWhile goIsSpace := by
    simp [goTrimSpace]
  rw [hb] at hc
  exact dropWhile_head_false goIsSpace _ c r hc

lemma goTrimSpace_cons_space (c : Char) (s : Str) (h : goIsSpace c = true) :
    goTrimSpace (c :: s) = goTrimSpace s := by
  simp [goTrimSpace, List.dropWhile_cons, h]

lemma joinLines_ne_nil (ls : List Str) (hne : ls ≠ [])
    (h : ∀ x ∈ ls, x ≠ []) : joinLines ls ≠ [] := by
  cases ls with
  | nil => exact absurd rfl hne
  | cons x rest =>
    have hx := h x (by simp)
    cases x with
    | nil => exact absurd rfl hx
    | cons c0 xr => cases rest <;> simp [joinLines]

lemma joinLines_head_not_space (ls : List Str)
    (h : ∀ x ∈ ls, goTrimSpace x = x ∧ x ≠ []) :
    ∀ c r, joinLines ls = c :: r → goIsSpace c = false := by
  intro c r hc
  cases ls with
  | nil => simp [joinLines] at hc
  | cons x rest =>
    obtain ⟨hx, hxne⟩ := h x (by simp)
    cases x with
    | nil => exact absurd rfl hxne
    | cons c0 xr =>
      have hj : ∃ t, joinLines ((c0 :: xr) :: rest) = c0 :: t := by
        cases rest with
        | nil => exact ⟨xr, by simp [joinLines]⟩
        | cons y r2 => exact ⟨xr ++ '\n' :: joinLines (y :: r2), by simp [joinLines]⟩
      obtain ⟨t, ht⟩ := hj
      rw [ht] at hc
      have hc0 : c0 = c := (List.cons.injEq _ _ _ _).mp hc |>.1
      subst hc0
      exact goTrimSpace_head_not_space (c0 :: xr) c0 xr hx

lemma joinLines_rev_head_not_space (ls : List Str)
    (h : ∀ x ∈ ls, goTrimSpace x = x ∧ x ≠ []) :
    ∀ c r, (joinLines ls).reverse = c :: r → goIsSpace c = false := by
  induction ls with
  | nil => intro c r hc; simp [joinLines] at hc
  | cons x rest ih =>
    intro c r hc
    cases rest with
    | nil =>
      obtain ⟨hx, _⟩ := h x (by simp)
      have h1 : x.reverse = c :: r := by simpa [joinLines] using hc
      have h2 : (goTrimSpace x).reverse = c :: r := by rw [hx]; exact h1
      exact goTrimSpace_rev_head_not_space x c r h2
    | cons y rest2 =>
      have hj : (joinLines (x :: y :: rest2)).reverse
          = (joinLines (y :: rest2)).reverse ++ '\n' :: x.reverse := by
        simp [joinLines]
      rw [hj] at hc
      have hjne : joinLines (y :: rest2) ≠ [] :=
        joinLines_ne_nil _ (by simp) (fun z hz => (h z (by simp [hz])).2)
      cases hrev : (joinLines (y :: rest2)).reverse with
      | nil =>
        rw [List.reverse_eq_nil_iff] at hrev
        exact absurd hrev hjne
      | cons c2 r2 =>
        rw [hrev] at hc
        have hc2 : c2 = c := (List.cons.injEq _ _ _ _).mp hc |>.1
        subst hc2
        exact ih (fun z hz => h z (by simp [hz])) c2 r2 hrev

/-- A join of trim-fixed non-empty pieces is itself trim-fixed. -/
lemma goTrimSpace_joinLines (ls : List Str)
    (h : ∀ x ∈ ls, goTrimSpace x = x ∧ x ≠ []) :
    goTrimSpace (joinLines ls) = joinLines ls := by
  have hfront : (joinLines ls).dropWhile goIsSpace = joinLines ls :=
    dropWhile_of_head_false _ _ (fun c r hc =>
      joinLines_head_not_space ls h c r hc)
  have hback : (joinLines ls).reverse.dropWhile goIsSpace
      = (joinLines ls).reverse :=
    dropWhile_of_head_false _ _ (fun c r hc =>
      joinLines_rev_head_not_space ls h c r hc)
  show (((joinLines ls).dropWhile goIsSpace).reverse.dropWhile goIsSpace).reverse
    = joinLines ls
  rw [hfront, hback, List.reverse_reverse]

/-- A whitespace-free non-empty id, as every stored entity id is. -/
def CleanId (id : Str) : Prop :=
  id ≠ [] ∧ ∀ c ∈ id, goIsSpace c = false

/-- The ids parsed out of a tag-index value: lines, trimmed, blanks
dropped (the parse every reader of the index performs). -/
def valIds (v : Str) : List Str :=
  ((splitLines v).map goTrimSpace).filter fun x => x ≠ []

/-- A tag-index value in store shape: the newline join of its own parsed
ids with no duplicates. -/
def CleanVal (v : Str) : Prop :=
  v = joinLines (valIds v) ∧ (valIds v).Nodup

/-- The id list a tag currently indexes. -/
def tagIds (s : StoreState) (tg : Str) : List Str :=
  match alLookup s.tags tg with
  | none => []
  | some e => valIds e.val

lemma valIds_elem (v : Str) :
    ∀ x ∈ valIds v, goTrimSpace x = x ∧ x ≠ [] ∧ '\n' ∉ x := by
  intro x hx
  simp only [valIds, List.mem_filter, List.mem_map] at hx
  obtain ⟨⟨l, hl, rfl⟩, hne⟩ := hx
  refine ⟨goTrimSpace_idem l, by simpa using hne, fun hn => ?_⟩
  exact splitLines_no_newline v l hl (goTrimSpace_subset l _ hn)

lemma CleanId_trimfix (id : Str) (h : CleanId id) :
    goTrimSpace id = id ∧ id ≠ [] ∧ '\n' ∉ id := by
  refine ⟨goTrimSpace_eq_self id h.2, h.1, fun hn => ?_⟩
  have := h.2 '\n' hn
  simp [goIsSpace] at this

lemma valIds_joinLines (ids : List Str)
    (h : ∀ x ∈ ids, goTrimSpace x = x ∧ x ≠ [] ∧ '\n' ∉ x) :
    valIds (joinLines ids) = ids := by
  cases ids with
  | nil => simp [joinLines, valIds, splitLines, splitLinesAux, goTrimSpace]
  | cons x rest =>
    have hsplit : splitLines (joinLines (x :: rest)) = x :: rest :=
      splitLines_joinLines _ (by simp) (fun l hl => (h l hl).2.2)
    have hmap : (x :: rest).map goTrimSpace = x :: rest := by
      conv_rhs => rw [← List.map_id (x :: rest)]
      exact List.map_congr_left fun l hl => (h l hl).1
    have hfil : (x :: rest).filter (fun y => y ≠ []) = x :: rest := by
      rw [List.filter_eq_self]
      intro l hl
      simpa using (h l hl).2.1
    rw [valIds, hsplit, hmap, hfil]

lemma CleanVal_joinLines (ids : List Str)
    (h : ∀ x ∈ ids, goTrimSpace x = x ∧ x ≠ [] ∧ '\n' ∉ x)
    (hnd : ids.Nodup) : CleanVal (joinLines ids) :=
  ⟨by rw [valIds_joinLines ids h], by rw [valIds_joinLines ids h]; exact hnd⟩

lemma CleanVal_single (id : Str) (h : CleanId id) : CleanVal id := by
  have h2 := CleanId_trimfix id h
  have h3 := CleanVal_joinLines [id]
    (by intro x hx; rcases List.mem_singleton.mp hx with rfl; exact h2)
    (by simp)
  have hj : joinLines [id] = id := rfl
  rw [hj] at h3
  exact h3

lemma splitLines_of_CleanVal (v : Str) (h : CleanVal v) (hne : valIds v ≠ []) :
    splitLines v = valIds v := by
  have h2 := splitLines_joinLines (valIds v) hne
    (fun l hl => (valIds_elem v l hl).2.2)
  rw [← h.1] at h2
  exact h2

lemma CleanVal_nil_of_valIds_nil (v : Str) (h : CleanVal v)
    (hn : valIds v = []) : v = [] := by
  rw [h.1, hn]; rfl

lemma alLookup_mem {β : Type} (l : List (Str × β)) (k : Str) (v : β)
    (h : alLookup l k = some v) : (k, v) ∈ l := by
  induction l with
  | nil => simp [alLookup] at h
  | cons p rest ih =>
    obtain ⟨k2, v2⟩ := p
    by_cases hp : k2 = k
    · subst hp
      simp [alLookup] at h
      rw [← h]
      simp
    · simp only [alLookup, if_neg hp] at h
      exact List.mem_cons.mpr (Or.inr (ih h))

lemma alLookup_append_single {β : Type} (l : List (Str × β)) (k k2 : Str)
    (v : β) : alLookup (l ++ [(k, v)]) k2 =
      match alLookup l k2 with
      | some w => some w
      | none => if k = k2 then some v else none := by
  induction l with
  | nil => simp [alLookup]
  | cons p rest ih =>
    obtain ⟨k3, v3⟩ := p
    by_cases hp : k3 = k2
    · simp [alLookup, hp]
    · simpa [alLookup, hp] using ih

/-- The membership check of `appendTagID` is exactly membership in the
parsed id list, for a non-empty candidate id. -/
lemma any_trim_eq_iff_mem_valIds (v : Str) (id : Str) (hne : id ≠ []) :
    ((splitLines v).any fun l => goTrimSpace l = id) = true ↔ id ∈ valIds v := by
  simp only [List.any_eq_true, decide_eq_true_eq, valIds, List.mem_filter,
    List.mem_map]
  constructor
  · rintro ⟨l, hl, hid⟩
    exact ⟨⟨l, hl, hid⟩, by simpa using hne⟩
  · rintro ⟨⟨l, hl, hid⟩, _⟩
    exact ⟨l, hl, hid⟩

/-- `appendTagID` on a healthy store: always succeeds, touches only the
given tag, adds the id exactly once, and preserves cleanliness. -/
lemma appendTagID_ok (s : StoreState) (tag id : Str)
    (hf : s.tagsFail = false) (hid : CleanId id)
    (hcl : ∀ p ∈ s.tags, CleanVal p.2.val) :
    ∃ s2, appendTagID s tag id = .ok s2 ∧ s2.tasks = s.tasks ∧
      s2.tagsFail = s.tagsFail ∧ (∀ p ∈ s2.tags, CleanVal p.2.val) ∧
      (∀ tg2, tg2 ≠ tag → alLookup s2.tags tg2 = alLookup s.tags tg2) ∧
      tagIds s2 tag =
        (if id ∈ tagIds s tag then tagIds s tag else tagIds s tag ++ [id]) := by
  obtain ⟨hidtrim, hidne, hidnl⟩ := CleanId_trimfix id hid
  cases hlk : alLookup s.tags tag with
  | none =>
    -- create path
    refine ⟨{ s with tags := s.tags ++ [(tag, ⟨id, 1⟩)] }, ?_, rfl, rfl, ?_, ?_, ?_⟩
    · simp [appendTagID, kvTagsGet, hf, hlk, kvTagsCreate]
    · intro p hp
      rcases List.mem_append.mp hp with h1 | h1
      · exact hcl p h1
      · rcases List.mem_singleton.mp h1 with rfl
        exact CleanVal_single id hid
    · intro tg2 hne
      have hne2 : tag ≠ tg2 := Ne.symm hne
      simp only [alLookup_append_single]
      cases h2 : alLookup s.tags tg2 with
      | some w => rfl
      | none => simp [hne2]
    · have h1 : tagIds s tag = [] := by simp [tagIds, hlk]
      have h2 : alLookup (s.tags ++ [(tag, (⟨id, 1⟩ : TagEntry))]) tag
          = some ⟨id, 1⟩ := alLookup_append_right _ _ _ hlk
      have h3 : valIds id = [id] := by
        have := CleanVal_single id hid
        have h4 := valIds_joinLines [id]
          (by intro x hx; rcases List.mem_singleton.mp hx with rfl
              exact ⟨hidtrim, hidne, hidnl⟩)
        simpa [joinLines] using h4
      simp [tagIds, hlk, h2, h3]
  | some e =>
    have hclean : CleanVal e.val := hcl (tag, e) (alLookup_mem _ _ _ hlk)
    have htag : tagIds s tag = valIds e.val := by simp [tagIds, hlk]
    by_cases hmem : id ∈ valIds e.val
    · -- already present: no write
      have hany : ((splitLines e.val).any fun l => goTrimSpace l = id) = true :=
        (any_trim_eq_iff_mem_valIds e.val id hidne).mpr hmem
      refine ⟨s, ?_, rfl, rfl, hcl, fun _ _ => rfl, ?_⟩
      · simp [appendTagID, kvTagsGet, hf, hlk, hany]
      · rw [htag, if_pos hmem]
    · -- absent: join, trim, conditional write
      have hany : ((splitLines e.val).any fun l => goTrimSpace l = id) = false := by
        rw [← Bool.not_eq_true]
        intro hx
        exact hmem ((any_trim_eq_iff_mem_valIds e.val id hidne).mp hx)
      have hpieces : ∀ x ∈ valIds e.val ++ [id],
          goTrimSpace x = x ∧ x ≠ [] ∧ '\n' ∉ x := by
        intro x hx
        rcases List.mem_append.mp hx with h1 | h1
        · exact valIds_elem e.val x h1
        · rcases List.mem_singleton.mp h1 with rfl
          exact ⟨hidtrim, hidne, hidnl⟩
      have hnewval : goTrimSpace (joinLines (splitLines e.val ++ [id]))
          = joinLines (valIds e.val ++ [id]) := by
        by_cases hvn : valIds e.val = []
        · have hv0 : e.val = [] := CleanVal_nil_of_valIds_nil e.val hclean hvn
          rw [hv0]
          have hsp : splitLines ([] : Str) = [[]] := rfl
          have hvi : valIds ([] : Str) = [] := rfl
          rw [hsp, hvi]
          have hj : joinLines ([[]] ++ [id]) = '\n' :: id := by simp [joinLines]
          rw [hj, goTrimSpace_cons_space '\n' id (by simp [goIsSpace]),
            hidtrim]
          simp [joinLines]
        · rw [splitLines_of_CleanVal e.val hclean hvn]
          exact goTrimSpace_joinLines _ (fun x hx =>
            ⟨(hpieces x hx).1, (hpieces x hx).2.1⟩)
      have hnew_clean : CleanVal (joinLines (valIds e.val ++ [id])) :=
        CleanVal_joinLines _ hpieces
          (List.Nodup.append hclean.2 (by simp) (by
            intro a ha hb
            rcases List.mem_singleton.mp hb with rfl
            exact hmem ha))
      have hvids : valIds (joinLines (valIds e.val ++ [id]))
          = valIds e.val ++ [id] := valIds_joinLines _ hpieces
      refine ⟨{ s with tags := alPut s.tags tag (TagEntry.mk (joinLines (valIds e.val ++ [id])) (e.rev + 1)) }, ?_, rfl, rfl, ?_, ?_, ?_⟩
      · simp [appendTagID, kvTagsGet, hf, hlk, hany, kvTagsUpdate, hnewval]
      · intro p hp
        rcases alPut_mem _ _ _ p hp with h1 | h1
        · rw [h1]; exact hnew_clean
        · exact hcl p h1
      · intro tg2 hne
        exact alLookup_alPut_other _ _ _ _ (Ne.symm hne)
      · rw [htag, if_neg hmem]
        simp [tagIds, alLookup_alPut_self, hvids]

/-- The tag loop of `CreateTask` on a healthy store: succeeds and keeps the
index clean, the entity bucket untouched. -/
lemma appendTags_ok (s : StoreState) (tags : List Str) (id : Str)
    (hf : s.tagsFail = false) (hid : CleanId id)
    (hcl : ∀ p ∈ s.tags, CleanVal p.2.val) :
    ∃ s2, appendTags s tags id = .ok s2 ∧ s2.tasks = s.tasks ∧
      s2.tagsFail = false ∧ ∀ p ∈ s2.tags, CleanVal p.2.val := by
  induction tags generalizing s with
  | nil => exact ⟨s, rfl, rfl, hf, hcl⟩
  | cons tg rest ih =>
    obtain ⟨s1, h1, htasks1, hfail1, hcl1, _, _⟩ := appendTagID_ok s tg id hf hid hcl
    obtain ⟨s2, h2, htasks2, hfail2, hcl2⟩ := ih s1 (hfail1.trans hf) hcl1
    exact ⟨s2, by simp [appendTags, h1, h2], htasks2.trans htasks1, hfail2, hcl2⟩

end UTask

namespace UTask

/-! The claims. -/

instance exceptDecEq {ε α : Type} [DecidableEq ε] [DecidableEq α] :
    DecidableEq (Except ε α) := fun x y =>
  match x, y with
  | .ok a, .ok b =>
    if h : a = b then isTrue (by rw [h]) else isFalse (by simp [h])
  | .error e, .error f =>
    if h : e = f then isTrue (by rw [h]) else isFalse (by simp [h])
  | .ok _, .error _ => isFalse (by simp)
  | .error _, .ok _ => isFalse (by simp)

/-- C6: prefix resolution is exhaustive over the match count: zero matching
ids fail `notFound`, exactly one resolves to it with no candidates, two or
more fail `ambiguous` carrying the full match list; `Resolve` rejects a
prefix that trims to empty with the distinct `emptyPrefix` error (and
otherwise defers to `matchPrefix` over the key universe). -/
theorem c6_prefix_resolution :
    (∀ (keys : List Str) (p : Str),
      ((keys.filter fun k => p.isPrefixOf k) = [] →
        matchPrefix keys p = ([], [], some GoErr.notFound)) ∧
      (∀ k, (keys.filter fun k2 => p.isPrefixOf k2) = [k] →
        matchPrefix keys p = (k, [], none)) ∧
      (2 ≤ (keys.filter fun k2 => p.isPrefixOf k2).length →
        matchPrefix keys p =
          ([], keys.filter fun k2 => p.isPrefixOf k2, some GoErr.ambiguous))) ∧
    (∀ (s : StoreState) (p : Str), goTrimSpace p = [] →
      Resolve s p = ([], [], some GoErr.emptyPrefix)) ∧
    (∀ (s : StoreState) (p : Str), goTrimSpace p ≠ [] →
      Resolve s p = matchPrefix (kvTasksKeys s) (goTrimSpace p)) ∧
    GoErr.emptyPrefix ≠ GoErr.notFound ∧ GoErr.emptyPrefix ≠ GoErr.ambiguous := by
  refine ⟨fun keys p => ⟨?_, ?_, ?_⟩, ?_, ?_, by decide, by decide⟩
  · intro h
    simp [matchPrefix, h]
  · intro k h
    simp [matchPrefix, h]
  · intro h
    rcases hm : keys.filter fun k2 => p.isPrefixOf k2 with _ | ⟨k1, _ | ⟨k2, rest⟩⟩
    · rw [hm] at h; simp at h
    · rw [hm] at h; simp at h
    · simp [matchPrefix, hm]
  · intro s p h
    simp [Resolve, h]
  · intro s p h
    simp [Resolve, h]

/-- Witness for C6 at the id universe of the spec's own example:
`{abc12345deadbeef, abc9ffff0000, beadfeed}` with prefixes `dead` (no
match), `bead` (unique) and `abc` (ambiguous), and a blank prefix. -/
theorem c6_prefix_resolution_witness :
    matchPrefix ["abc12345deadbeef".data, "abc9ffff0000".data, "beadfeed".data]
      "dead".data = ([], [], some GoErr.notFound) ∧
    matchPrefix ["abc12345deadbeef".data, "abc9ffff0000".data, "beadfeed".data]
      "bead".data = ("beadfeed".data, [], none) ∧
    matchPrefix ["abc12345deadbeef".data, "abc9ffff0000".data, "beadfeed".data]
      "abc".data = ([], ["abc12345deadbeef".data, "abc9ffff0000".data],
        some GoErr.ambiguous) ∧
    Resolve (StoreState.mk [] [] false) " ".data
      = ([], [], some GoErr.emptyPrefix) := by
  have h := c6_prefix_resolution
  refine ⟨(h.1 _ _).1 (by decide), (h.1 _ _).2.1 _ (by decide), ?_, ?_⟩
  · have h3 := (h.1 ["abc12345deadbeef".data, "abc9ffff0000".data,
      "beadfeed".data] "abc".data).2.2 (by decide)
    rw [show (["abc12345deadbeef".data, "abc9ffff0000".data,
      "beadfeed".data].filter fun k2 => "abc".data.isPrefixOf k2)
      = ["abc12345deadbeef".data, "abc9ffff0000".data] by decide] at h3
    exact h3
  · exact h.2.1 _ _ (by decide)

/-- C1 (code defect): the entity write-back of Update, Close and Reopen,
`putTaskCAS`, accepts a fetched revision but never consults it — its result
is independent of the revision argument and it always commits an
unconditional `kvTasksPut`, with no retry loop or conflict error anywhere;
concretely, a caller holding stale revision 1 overwrites an entity whose
current revision is 3. -/
theorem c1_putTaskCAS_unconditional :
    (∀ (s : StoreState) (id : Str) (t : Task) (r1 r2 : Nat),
      putTaskCAS s id t r1 = putTaskCAS s id t r2) ∧
    (∀ (s : StoreState) (id : Str) (t : Task) (rev : Nat),
      putTaskCAS s id t rev = .ok (kvTasksPut s id t)) ∧
    putTaskCAS
      (StoreState.mk
        [("a".data, TaskEntry.mk (Task.mk "a".data "old".data false [] [] 0 0) 3)]
        [] false)
      "a".data (Task.mk "a".data "new".data false [] [] 0 0) 1
      = .ok (StoreState.mk
        [("a".data, TaskEntry.mk (Task.mk "a".data "new".data false [] [] 0 0) 4)]
        [] false) :=
  ⟨fun _ _ _ _ _ => rfl, fun _ _ _ _ => rfl, by decide⟩

/-- C10: calling Create for an input whose derived id is already present is
a pure read — the stored entity is returned with `existed = true` and the
state (entity collection and every tag-index entry) is returned exactly as
it was. -/
theorem c10_create_existing_is_pure_read (s : StoreState) (now : Str)
    (inp : TaskInput) (e : TaskEntry)
    (h : alLookup s.tasks (NormalizeInput inp).2 = some e) :
    CreateTask s now inp = .ok (e.task, true, s) := by
  simp [CreateTask, kvTasksCreate, kvTasksGet, h]

/-- Witness for C10: a one-task store holding the derived id of a concrete
input. -/
theorem c10_create_existing_is_pure_read_witness :
    CreateTask
      (StoreState.mk [((NormalizeInput (TaskInput.mk "w".data [] 1 2)).2,
        TaskEntry.mk (Task.mk "x".data "y".data false [] [] 0 0) 1)] [] false)
      "2026-01-01T00:00:00Z".data (TaskInput.mk "w".data [] 1 2)
      = .ok (Task.mk "x".data "y".data false [] [] 0 0, true,
        StoreState.mk [((NormalizeInput (TaskInput.mk "w".data [] 1 2)).2,
          TaskEntry.mk (Task.mk "x".data "y".data false [] [] 0 0) 1)] [] false) :=
  c10_create_existing_is_pure_read
    (StoreState.mk [((NormalizeInput (TaskInput.mk "w".data [] 1 2)).2,
      TaskEntry.mk (Task.mk "x".data "y".data false [] [] 0 0) 1)] [] false)
    "2026-01-01T00:00:00Z".data (TaskInput.mk "w".data [] 1 2)
    (TaskEntry.mk (Task.mk "x".data "y".data false [] [] 0 0) 1)
    (by simp [alLookup])

/-- `appendTagID` writes only to the tag bucket. -/
lemma appendTagID_frame (s : StoreState) (tag id : Str) (s2 : StoreState)
    (h : appendTagID s tag id = .ok s2) :
    s2.tasks = s.tasks ∧ s2.tagsFail = s.tagsFail := by
  rw [appendTagID] at h
  cases hg : kvTagsGet s tag with
  | error e =>
    rw [hg] at h
    cases e <;> simp only at h <;> try cases h
    · rw [kvTagsCreate] at h
      by_cases hf : s.tagsFail
      · rw [if_pos hf] at h; cases h
      · rw [if_neg hf] at h
        cases hlk : alLookup s.tags tag with
        | some e2 => rw [hlk] at h; cases h
        | none =>
          rw [hlk] at h
          cases h
          exact ⟨rfl, rfl⟩
  | ok e =>
    rw [hg] at h
    simp only at h
    by_cases hany : ((splitLines e.val).any fun l => goTrimSpace l = id) = true
    · rw [if_pos hany] at h
      cases h
      exact ⟨rfl, rfl⟩
    · rw [if_neg hany] at h
      rw [kvTagsUpdate] at h
      by_cases hf : s.tagsFail
      · rw [if_pos hf] at h; cases h
      · rw [if_neg hf] at h
        cases hlk : alLookup s.tags tag with
        | none => rw [hlk] at h; cases h
        | some e2 =>
          rw [hlk] at h
          dsimp only at h
          by_cases hr : e2.rev = e.rev
          · rw [if_pos hr] at h
            cases h
            exact ⟨rfl, rfl⟩
          · rw [if_neg hr] at h; cases h

/-- `removeTagID` writes only to the tag bucket. -/
lemma removeTagID_frame (s : StoreState) (tag id : Str) (s2 : StoreState)
    (h : removeTagID s tag id = .ok s2) :
    s2.tasks = s.tasks ∧ s2.tagsFail = s.tagsFail := by
  rw [removeTagID] at h
  cases hg : kvTagsGet s tag with
  | error e =>
    rw [hg] at h
    cases e <;> cases h <;> exact ⟨rfl, rfl⟩
  | ok e =>
    rw [hg] at h
    simp only [kvTagsUpdate] at h
    by_cases hf : s.tagsFail
    · rw [if_pos hf] at h; cases h
    · rw [if_neg hf] at h
      cases hlk : alLookup s.tags tag with
      | none => rw [hlk] at h; cases h
      | some e2 =>
        rw [hlk] at h
        dsimp only at h
        by_cases hr : e2.rev = e.rev
        · rw [if_pos hr] at h
          cases h
          exact ⟨rfl, rfl⟩
        · rw [if_neg hr] at h; cases h

lemma appendTags_frame (s : StoreState) (tags : List Str) (id : Str)
    (s2 : StoreState) (h : appendTags s tags id = .ok s2) :
    s2.tasks = s.tasks ∧ s2.tagsFail = s.tagsFail := by
  induction tags generalizing s with
  | nil =>
    rw [appendTags] at h
    cases h
    exact ⟨rfl, rfl⟩
  | cons tg rest ih =>
    rw [appendTags] at h
    cases ha : appendTagID s tg id with
    | error e => rw [ha] at h; cases h
    | ok s1 =>
      rw [ha] at h
      obtain ⟨h1, h2⟩ := appendTagID_frame s tg id s1 ha
      obtain ⟨h3, h4⟩ := ih s1 h
      exact ⟨h3.trans h1, h4.trans h2⟩

lemma orKeep_append_frame (st : StoreState) (tg id : Str) :
    (orKeep st (appendTagID st tg id)).tasks = st.tasks ∧
    (orKeep st (appendTagID st tg id)).tagsFail = st.tagsFail := by
  cases ha : appendTagID st tg id with
  | error e => simp [orKeep, ha]
  | ok s2 =>
    simpa [orKeep, ha] using appendTagID_frame st tg id s2 ha

lemma orKeep_remove_frame (st : StoreState) (tg id : Str) :
    (orKeep st (removeTagID st tg id)).tasks = st.tasks ∧
    (orKeep st (removeTagID st tg id)).tagsFail = st.tagsFail := by
  cases ha : removeTagID st tg id with
  | error e => simp [orKeep, ha]
  | ok s2 =>
    simpa [orKeep, ha] using removeTagID_frame st tg id s2 ha

lemma foldl_orKeep_append_frame (l : List Str) (id : Str) :
    ∀ st : StoreState,
      ((l.foldl (fun st2 tg => orKeep st2 (appendTagID st2 tg id)) st)).tasks
        = st.tasks ∧
      ((l.foldl (fun st2 tg => orKeep st2 (appendTagID st2 tg id)) st)).tagsFail
        = st.tagsFail := by
  induction l with
  | nil => intro st; exact ⟨rfl, rfl⟩
  | cons tg rest ih =>
    intro st
    obtain ⟨h1, h2⟩ := orKeep_append_frame st tg id
    obtain ⟨h3, h4⟩ := ih (orKeep st (appendTagID st tg id))
    exact ⟨h3.trans h1, h4.trans h2⟩

lemma foldl_orKeep_remove_frame (l : List Str) (id : Str) :
    ∀ st : StoreState,
      ((l.foldl (fun st2 tg => orKeep st2 (removeTagID st2 tg id)) st)).tasks
        = st.tasks ∧
      ((l.foldl (fun st2 tg => orKeep st2 (removeTagID st2 tg id)) st)).tagsFail
        = st.tagsFail := by
  induction l with
  | nil => intro st; exact ⟨rfl, rfl⟩
  | cons tg rest ih =>
    intro st
    obtain ⟨h1, h2⟩ := orKeep_remove_frame st tg id
    obtain ⟨h3, h4⟩ := ih (orKeep st (removeTagID st tg id))
    exact ⟨h3.trans h1, h4.trans h2⟩

lemma appendTagID_fail (st : StoreState) (tg id : Str)
    (hf : st.tagsFail = true) :
    appendTagID st tg id = .error GoErr.substrate := by
  simp [appendTagID, kvTagsGet, hf]

lemma removeTagID_fail (st : StoreState) (tg id : Str)
    (hf : st.tagsFail = true) :
    removeTagID st tg id = .error GoErr.substrate := by
  simp [removeTagID, kvTagsGet, hf]

/-- With the tag bucket down, every discarded append is a no-op. -/
lemma foldl_orKeep_append_fail (l : List Str) (id : Str) :
    ∀ st : StoreState, st.tagsFail = true →
      l.foldl (fun st2 tg => orKeep st2 (appendTagID st2 tg id)) st = st := by
  induction l with
  | nil =>
    intro st _
    rfl
  | cons tg rest ih =>
    intro st hf
    rw [List.foldl_cons]
    have h1 : orKeep st (appendTagID st tg id) = st := by
      rw [appendTagID_fail st tg id hf]
      rfl
    rw [h1]
    exact ih st hf

/-- With the tag bucket down, every discarded removal is a no-op. -/
lemma foldl_orKeep_remove_fail (l : List Str) (id : Str) :
    ∀ st : StoreState, st.tagsFail = true →
      l.foldl (fun st2 tg => orKeep st2 (removeTagID st2 tg id)) st = st := by
  induction l with
  | nil =>
    intro st _
    rfl
  | cons tg rest ih =>
    intro st hf
    rw [List.foldl_cons]
    have h1 : orKeep st (removeTagID st tg id) = st := by
      rw [removeTagID_fail st tg id hf]
      rfl
    rw [h1]
    exact ih st hf

/-- The two discarded index-diff folds of `UpdateTask`, with the tag
bucket down: the state passes through untouched. -/
lemma update_foldls_fail (s1 : StoreState) (l1 l2 : List Str) (id : Str)
    (hf : s1.tagsFail = true) :
    l2.foldl (fun st tg => orKeep st (removeTagID st tg id))
      (l1.foldl (fun st tg => orKeep st (appendTagID st tg id)) s1) = s1 := by
  rw [foldl_orKeep_append_fail l1 id s1 hf]
  exact foldl_orKeep_remove_fail l2 id s1 hf

lemma kvTasksPut_tags (s : StoreState) (id : Str) (t : Task) :
    (kvTasksPut s id t).tags = s.tags ∧
    (kvTasksPut s id t).tagsFail = s.tagsFail := by
  cases hlk : alLookup s.tasks id with
  | none => simp [kvTasksPut, hlk]
  | some e => simp [kvTasksPut, hlk]

lemma GetTask_ok_lookup (s : StoreState) (id : Str) (t0 : Task) (r : Nat)
    (h : GetTask s id = .ok (t0, r)) :
    alLookup s.tasks id = some (TaskEntry.mk t0 r) := by
  rw [GetTask, kvTasksGet] at h
  cases hlk : alLookup s.tasks id with
  | none => rw [hlk] at h; cases h
  | some e =>
    rw [hlk] at h
    simp only [Except.ok.injEq, Prod.mk.injEq] at h
    rw [← h.1, ← h.2]

lemma GetTask_error_notFound (s : StoreState) (id : Str) (e : GoErr)
    (h : GetTask s id = .error e) : e = GoErr.notFound := by
  rw [GetTask, kvTasksGet] at h
  cases hlk : alLookup s.tasks id with
  | none =>
    rw [hlk] at h
    cases h
    rfl
  | some e2 => rw [hlk] at h; cases h

lemma goNormTags_facts (ts : List Str) :
    (goNormTags ts).Nodup ∧ ∀ tg ∈ goNormTags ts, normTag tg = tg ∧ tg ≠ [] := by
  refine ⟨goNormTags_nodup ts, fun tg htg => ?_⟩
  obtain ⟨hne, hmem⟩ := (goNormTags_mem ts tg).mp htg
  obtain ⟨y, _, rfl⟩ := List.mem_map.mp hmem
  exact ⟨normTag_idem y, hne⟩

lemma sortStrings_goNormTags_facts (ts : List Str) :
    List.Sorted (· ≤ ·) (sortStrings (goNormTags ts)) ∧
    (sortStrings (goNormTags ts)).Nodup ∧
    ∀ tg ∈ sortStrings (goNormTags ts), normTag tg = tg ∧ tg ≠ [] := by
  refine ⟨List.sorted_insertionSort _ _,
    (List.perm_insertionSort _ _).nodup_iff.mpr (goNormTags_nodup ts),
    fun tg htg => ?_⟩
  exact (goNormTags_facts ts).2 tg ((List.perm_insertionSort _ _).mem_iff.mp htg)

set_option maxHeartbeats 4000000 in
/-- C2 counterexample: Update with replacement tags `["b", "a"]` stores them
in input order `["b", "a"]`, which is not lexicographically sorted — so the
caller's input order does affect the stored order. -/
theorem c2_counterexample :
    ((CreateTask (StoreState.mk [] [] false) []
        (TaskInput.mk "t".data ["a".data] 0 0)).toOption.bind
      fun r => (UpdateTask r.2.2 r.1.ID
          (UpdateSet.mk none none (some ["b".data, "a".data]) none)).toOption.bind
        fun u => (alLookup u.2.tasks r.1.ID).map fun e2 => e2.task.Tags)
      = some ["b".data, "a".data] ∧
    ¬ List.Sorted (fun x y => x ≤ y) [("b".data : Str), "a".data] := by
  constructor
  · rfl
  · decide

/-- C2 as amended: Create stores the canonical sorted normalization of the
input tags (duplicate-free, lowercased, trimmed, non-empty, sorted), but
Update stores the normalized replacement list in first-occurrence input
order without sorting, so for Update the caller's input order can affect
the stored order. -/
theorem c2_stored_tags_normalized :
    (∀ (s : StoreState) (now : Str) (inp : TaskInput) (t : Task)
      (s2 : StoreState), CreateTask s now inp = .ok (t, false, s2) →
      t.Tags = sortStrings (goNormTags inp.Tags) ∧
        List.Sorted (fun x y => x ≤ y) t.Tags ∧ t.Tags.Nodup ∧
        (∀ tg ∈ t.Tags, normTag tg = tg ∧ tg ≠ []) ∧
        alLookup s2.tasks t.ID = some (TaskEntry.mk t 1)) ∧
    (∀ (s : StoreState) (id : Str) (set : UpdateSet) (ts : List Str)
      (t : Task) (s2 : StoreState), set.Tags = some ts →
      UpdateTask s id set = .ok (t, s2) →
      t.Tags = goNormTags ts ∧ t.Tags.Nodup ∧
        (∀ tg ∈ t.Tags, normTag tg = tg ∧ tg ≠ []) ∧
        ∃ r, alLookup s2.tasks id = some (TaskEntry.mk t r)) := by
  constructor
  · intro s now inp t s2 h
    simp only [CreateTask] at h
    split at h
    · -- create hit an existing key: the existed flag contradicts `false`
      split at h
      · cases h
      · simp only [Except.ok.injEq, Prod.mk.injEq] at h
        exact absurd h.2.1.symm (by simp)
    · cases h
    · rename_i s1 heq
      split at h
      · cases h
      · rename_i s3 heq2
        simp only [Except.ok.injEq, Prod.mk.injEq] at h
        obtain ⟨ht, _, hs⟩ := h
        have htags : t.Tags = sortStrings (goNormTags inp.Tags) := by
          rw [← ht]
          simp [NormalizeInput]
        have hfacts := sortStrings_goNormTags_facts inp.Tags
        refine ⟨htags, htags ▸ hfacts.1, htags ▸ hfacts.2.1,
          htags ▸ hfacts.2.2, ?_⟩
        rw [kvTasksCreate] at heq
        cases hlk : alLookup s.tasks (NormalizeInput inp).2 with
        | some e0 => rw [hlk] at heq; cases heq
        | none =>
          rw [hlk] at heq
          simp only [Except.ok.injEq] at heq
          have htasks3 : s3.tasks = s1.tasks := (appendTags_frame _ _ _ _ heq2).1
          have htid : t.ID = (NormalizeInput inp).2 := by rw [← ht]
          rw [← hs, htasks3, ← heq, htid]
          show alLookup (s.tasks ++ _) _ = _
          rw [← ht]
          exact alLookup_append_right _ _ _ hlk
  · intro s id set ts t s2 hset h
    cases hg : GetTask s id with
    | error e =>
      simp only [UpdateTask, hg] at h
      cases h
    | ok pr =>
      obtain ⟨before, rev⟩ := pr
      simp only [UpdateTask, hg, putTaskCAS, Except.ok.injEq, Prod.mk.injEq] at h
      obtain ⟨ht, hs⟩ := h
      have htags : t.Tags = goNormTags ts := by
        rw [← ht]
        simp [hset]
      have hfacts := goNormTags_facts ts
      refine ⟨htags, htags ▸ hfacts.1, htags ▸ hfacts.2, rev + 1, ?_⟩
      rw [← hs, (foldl_orKeep_remove_frame _ _ _).1,
        (foldl_orKeep_append_frame _ _ _).1, ht]
      simp only [kvTasksPut, GetTask_ok_lookup s id before rev hg]
      exact alLookup_alPut_self _ _ _

/-- Witness for C2 at a concrete Update replacing tags `["a"]` with
`["b", "a"]`: the stored tags are the unsorted normalization in input
order, duplicate-free, normalized, and written back to the entity bucket. -/
theorem c2_stored_tags_normalized_witness :
    (Task.mk "x".data "t".data false ["b".data, "a".data] [] 0 0).Tags
      = goNormTags ["b".data, "a".data] ∧
    (Task.mk "x".data "t".data false ["b".data, "a".data] [] 0 0).Tags.Nodup ∧
    (∀ tg ∈ (Task.mk "x".data "t".data false ["b".data, "a".data] [] 0 0).Tags,
      normTag tg = tg ∧ tg ≠ []) ∧
    ∃ r, alLookup (StoreState.mk
        [("x".data, TaskEntry.mk
          (Task.mk "x".data "t".data false ["b".data, "a".data] [] 0 0) 2)]
        [("a".data, TagEntry.mk "x".data 1), ("b".data, TagEntry.mk "x".data 1)]
        false).tasks "x".data
      = some (TaskEntry.mk
        (Task.mk "x".data "t".data false ["b".data, "a".data] [] 0 0) r) :=
  c2_stored_tags_normalized.2
    (StoreState.mk [("x".data, TaskEntry.mk
      (Task.mk "x".data "t".data false ["a".data] [] 0 0) 1)]
      [("a".data, TagEntry.mk "x".data 1)] false)
    "x".data (UpdateSet.mk none none (some ["b".data, "a".data]) none)
    ["b".data, "a".data]
    (Task.mk "x".data "t".data false ["b".data, "a".data] [] 0 0)
    (StoreState.mk [("x".data, TaskEntry.mk
      (Task.mk "x".data "t".data false ["b".data, "a".data] [] 0 0) 2)]
      [("a".data, TagEntry.mk "x".data 1), ("b".data, TagEntry.mk "x".data 1)]
      false)
    rfl (by decide)

/-- C3 counterexample: with the tag bucket unreachable (every tag-index
call failing), Update that changes the tag set from `{a}` to `{b}` and
Delete of a tagged entity both return success while the tag index is left
untouched — the maintenance errors were silently discarded, not
propagated. -/
theorem c3_counterexample :
    UpdateTask
      (StoreState.mk [("x".data, TaskEntry.mk
        (Task.mk "x".data "t".data false ["a".data] [] 0 0) 1)]
        [("a".data, TagEntry.mk "x".data 1)] true)
      "x".data (UpdateSet.mk none none (some ["b".data]) none)
      = .ok (Task.mk "x".data "t".data false ["b".data] [] 0 0,
        StoreState.mk [("x".data, TaskEntry.mk
          (Task.mk "x".data "t".data false ["b".data] [] 0 0) 2)]
          [("a".data, TagEntry.mk "x".data 1)] true) ∧
    DeleteTask
      (StoreState.mk [("x".data, TaskEntry.mk
        (Task.mk "x".data "t".data false ["a".data] [] 0 0) 1)]
        [("a".data, TagEntry.mk "x".data 1)] true)
      "x".data
      = .ok ("x".data,
        StoreState.mk [] [("a".data, TagEntry.mk "x".data 1)] true) := by
  constructor
  · decide
  · decide

/-- C3 as amended: a tag-index maintenance failure during Create does
propagate to the caller, while during Update and Delete such failures are
silently discarded — with the tag bucket failing, an Update or Delete of a
present task still reports success and leaves the tag index exactly as it
was.  (Entity-bucket I/O errors are outside this model, whose fault
injection covers the tag bucket only; nothing here claims those are the
only errors Update or Delete can surface.) -/
theorem c3_error_propagation :
    (∀ (s : StoreState) (now : Str) (inp : TaskInput),
      s.tagsFail = true → alLookup s.tasks (NormalizeInput inp).2 = none →
      (NormalizeInput inp).1.Tags ≠ [] →
      CreateTask s now inp = .error GoErr.substrate) ∧
    (∀ (s : StoreState) (id : Str) (set : UpdateSet) (t0 : Task) (r : Nat),
      s.tagsFail = true → GetTask s id = .ok (t0, r) →
      ∃ t s2, UpdateTask s id set = .ok (t, s2) ∧ s2.tags = s.tags) ∧
    (∀ (s : StoreState) (id : Str) (t0 : Task) (r : Nat),
      s.tagsFail = true → GetTask s id = .ok (t0, r) →
      ∃ rid s2, DeleteTask s id = .ok (rid, s2) ∧ s2.tags = s.tags) := by
  refine ⟨?_, ?_, ?_⟩
  · intro s now inp hf hlk htags
    cases htl : (NormalizeInput inp).1.Tags with
    | nil => exact absurd htl htags
    | cons tg rest =>
      simp [CreateTask, kvTasksCreate, hlk, htl, appendTags, appendTagID,
        kvTagsGet, hf]
  · intro s id set t0 r hf hg
    simp only [UpdateTask, hg, putTaskCAS]
    refine ⟨_, _, rfl, ?_⟩
    rw [update_foldls_fail _ _ _ _ ((kvTasksPut_tags s id _).2.trans hf)]
    exact (kvTasksPut_tags s id _).1
  · intro s id t0 r hf hg
    simp only [DeleteTask, hg]
    refine ⟨_, _, rfl, ?_⟩
    rw [foldl_orKeep_remove_fail _ _ _
      (show (kvTasksDelete s id).tagsFail = true from hf)]
    rfl

lemma natToBytesBE_length (k n : Nat) : (natToBytesBE k n).length = k := by
  induction k generalizing n with
  | zero => rfl
  | succ k2 ih => simp [natToBytesBE, ih]

lemma sha512_length (msg : List Nat) : (sha512 msg).length = 64 := by
  simp [sha512, natToBytesBE_length]

/-- A lowercase hexadecimal digit. -/
def isHexLowerChar (c : Char) : Prop :=
  ('0' ≤ c ∧ c ≤ '9') ∨ ('a' ≤ c ∧ c ≤ 'f')

instance isHexLowerChar.decide (c : Char) : Decidable (isHexLowerChar c) := by
  unfold isHexLowerChar
  infer_instance

lemma hexDigitChar_hex (n : Nat) (h : n < 16) :
    isHexLowerChar (hexDigitChar n) := by
  interval_cases n <;> decide

lemma hexEncode_length (bs : List Nat) : (hexEncode bs).length = 2 * bs.length := by
  induction bs with
  | nil => rfl
  | cons b rest ih =>
    simp only [hexEncode, List.flatMap_cons] at ih ⊢
    simp [ih]
    omega

lemma hexEncode_hex (bs : List Nat) : ∀ c ∈ hexEncode bs, isHexLowerChar c := by
  intro c hc
  rw [hexEncode, List.mem_flatMap] at hc
  obtain ⟨b, _, hb⟩ := hc
  rcases List.mem_cons.mp hb with rfl | hb2
  · exact hexDigitChar_hex _ (Nat.mod_lt _ (by omega))
  · rcases List.mem_singleton.mp hb2 with rfl
    exact hexDigitChar_hex _ (Nat.mod_lt _ (by omega))

/-- Two inputs with the same canonical form derive the same id. -/
lemma NormalizeInput_congr (in1 in2 : TaskInput)
    (htext : goTrimSpace in1.Text = goTrimSpace in2.Text)
    (htags : sortStrings (goNormTags in1.Tags) = sortStrings (goNormTags in2.Tags))
    (hp : in1.Priority = in2.Priority)
    (he : in1.EstimateMinutes = in2.EstimateMinutes) :
    NormalizeInput in1 = NormalizeInput in2 := by
  simp only [NormalizeInput]
  rw [htext, htags, hp, he]

lemma dropWhile_append_spaces (p : Char → Bool) (pre s : Str)
    (h : ∀ c ∈ pre, p c = true) :
    (pre ++ s).dropWhile p = s.dropWhile p := by
  induction pre with
  | nil => rfl
  | cons c rest ih =>
    simp only [List.cons_append, List.dropWhile_cons, h c (by simp),
      if_pos rfl]
    exact ih fun c2 hc2 => h c2 (by simp [hc2])

lemma goTrimSpace_space_prepend (pre s : Str)
    (h : ∀ c ∈ pre, goIsSpace c = true) :
    goTrimSpace (pre ++ s) = goTrimSpace s := by
  unfold goTrimSpace
  rw [dropWhile_append_spaces goIsSpace pre s h]

lemma goTrimSpace_space_append (s post : Str)
    (h : ∀ c ∈ post, goIsSpace c = true) :
    goTrimSpace (s ++ post) = goTrimSpace s := by
  cases hd : s.dropWhile goIsSpace with
  | nil =>
    have hall : ∀ c ∈ s, goIsSpace c = true := by
      have := List.dropWhile_eq_nil_iff.mp hd
      simpa using this
    have h1 : (s ++ post).dropWhile goIsSpace = [] := by
      rw [List.dropWhile_append, hd]
      simpa [List.dropWhile_eq_nil_iff] using h
    unfold goTrimSpace
    rw [h1, hd]
  | cons c rest =>
    have h1 : (s ++ post).dropWhile goIsSpace = (c :: rest) ++ post := by
      rw [List.dropWhile_append, hd]
      rfl
    unfold goTrimSpace
    rw [h1, hd]
    have h2 : ((c :: rest) ++ post).reverse
        = post.reverse ++ (c :: rest).reverse := by simp
    rw [h2, dropWhile_append_spaces goIsSpace post.reverse _
      (fun c2 hc2 => h c2 (by simpa using hc2))]

lemma goNormTagsAux_map_congr (f : Str → Str)
    (hf : ∀ x, normTag (f x) = normTag x) (seen ts : List Str) :
    goNormTagsAux seen (ts.map f) = goNormTagsAux seen ts := by
  induction ts generalizing seen with
  | nil => rfl
  | cons t rest ih =>
    simp only [List.map_cons, goNormTagsAux, hf t]
    by_cases h0 : normTag t = []
    · simp only [if_pos h0, ih]
    · by_cases hseen : normTag t ∈ seen
      · simp only [if_neg h0, if_pos hseen, ih]
      · simp only [if_neg h0, if_neg hseen, ih]

set_option maxHeartbeats 2000000 in
/-- C5: the derived id is a deterministic 128-character lowercase-hex
function of the canonical form — its shape holds for every input, inputs
with equal trimmed text, equal normalized tag sets (up to permutation) and
equal numeric fields share an id, and permuting the tag list, padding the
text with surrounding whitespace, re-casing tags, or appending duplicate
tags leaves the id unchanged. -/
theorem c5_id_derivation :
    (∀ inp : TaskInput, (NormalizeInput inp).2.length = 128 ∧
      ∀ c ∈ (NormalizeInput inp).2, isHexLowerChar c) ∧
    (∀ in1 in2 : TaskInput, goTrimSpace in1.Text = goTrimSpace in2.Text →
      (goNormTags in1.Tags).Perm (goNormTags in2.Tags) →
      in1.Priority = in2.Priority → in1.EstimateMinutes = in2.EstimateMinutes →
      (NormalizeInput in1).2 = (NormalizeInput in2).2) ∧
    (∀ (inp : TaskInput) (ts2 : List Str) (pre post : Str),
      ts2.Perm inp.Tags → (∀ c ∈ pre, goIsSpace c = true) →
      (∀ c ∈ post, goIsSpace c = true) →
      (NormalizeInput (TaskInput.mk (pre ++ inp.Text ++ post) ts2
        inp.Priority inp.EstimateMinutes)).2 = (NormalizeInput inp).2) ∧
    (∀ (inp : TaskInput) (f : Str → Str), (∀ x, normTag (f x) = normTag x) →
      (NormalizeInput (TaskInput.mk inp.Text (inp.Tags.map f)
        inp.Priority inp.EstimateMinutes)).2 = (NormalizeInput inp).2) ∧
    (∀ (inp : TaskInput) (dups : List Str), (∀ d ∈ dups, d ∈ inp.Tags) →
      (NormalizeInput (TaskInput.mk inp.Text (inp.Tags ++ dups)
        inp.Priority inp.EstimateMinutes)).2 = (NormalizeInput inp).2) := by
  refine ⟨?_, ?_, ?_, ?_, ?_⟩
  · intro inp
    constructor
    · show (hexEncode (sha512 _)).length = 128
      rw [hexEncode_length, sha512_length]
    · intro c hc
      exact hexEncode_hex _ c hc
  · intro in1 in2 htext hperm hp he
    have hs : sortStrings (goNormTags in1.Tags) = sortStrings (goNormTags in2.Tags) :=
      List.eq_of_perm_of_sorted
        (((List.perm_insertionSort _ _).trans hperm).trans
          (List.perm_insertionSort _ _).symm)
        (List.sorted_insertionSort _ _) (List.sorted_insertionSort _ _)
    exact congrArg Prod.snd (NormalizeInput_congr in1 in2 htext hs hp he)
  · intro inp ts2 pre post hperm hpre hpost
    have htext : goTrimSpace (pre ++ inp.Text ++ post) = goTrimSpace inp.Text := by
      rw [List.append_assoc, goTrimSpace_space_prepend pre _ hpre,
        goTrimSpace_space_append _ post hpost]
    have htags : sortStrings (goNormTags ts2) = sortStrings (goNormTags inp.Tags) :=
      sortStrings_goNormTags_congr _ _ fun x => by
        rw [(hperm.map normTag).mem_iff]
    exact congrArg Prod.snd (NormalizeInput_congr
      (TaskInput.mk (pre ++ inp.Text ++ post) ts2 inp.Priority
        inp.EstimateMinutes) inp htext htags rfl rfl)
  · intro inp f hf
    have htags : sortStrings (goNormTags (inp.Tags.map f))
        = sortStrings (goNormTags inp.Tags) :=
      congrArg sortStrings (goNormTagsAux_map_congr f hf [] inp.Tags)
    exact congrArg Prod.snd (NormalizeInput_congr
      (TaskInput.mk inp.Text (inp.Tags.map f) inp.Priority
        inp.EstimateMinutes) inp rfl htags rfl rfl)
  · intro inp dups hdups
    have htags : sortStrings (goNormTags (inp.Tags ++ dups))
        = sortStrings (goNormTags inp.Tags) := by
      refine sortStrings_goNormTags_congr _ _ fun x => ?_
      simp only [List.map_append, List.mem_append]
      constructor
      · rintro ⟨h1 | h1, h2⟩
        · exact ⟨h1, h2⟩
        · obtain ⟨d, hd, rfl⟩ := List.mem_map.mp h1
          exact ⟨List.mem_map.mpr ⟨d, hdups d hd, rfl⟩, h2⟩
      · rintro ⟨h1, h2⟩
        exact ⟨Or.inl h1, h2⟩
    exact congrArg Prod.snd (NormalizeInput_congr
      (TaskInput.mk inp.Text (inp.Tags ++ dups) inp.Priority
        inp.EstimateMinutes) inp rfl htags rfl rfl)

/-- Witness for C5 at concrete inputs: permuting tags, re-casing them,
duplicating one and padding the text with whitespace all preserve the id
of `("hi", ["B", "a"], 1, 2)`. -/
theorem c5_id_derivation_witness :
    (NormalizeInput (TaskInput.mk (" ".data ++ "hi".data ++ "\t".data)
      ["a".data, "B".data] 1 2)).2
      = (NormalizeInput (TaskInput.mk "hi".data ["B".data, "a".data] 1 2)).2 ∧
    (NormalizeInput (TaskInput.mk "hi".data ["B".data, "a".data, "a".data] 1 2)).2
      = (NormalizeInput (TaskInput.mk "hi".data ["B".data, "a".data] 1 2)).2 ∧
    (NormalizeInput (TaskInput.mk "hi".data ["B".data, "a".data] 1 2)).2.length
      = 128 := by
  refine ⟨?_, ?_, (c5_id_derivation.1 _).1⟩
  · exact c5_id_derivation.2.2.1 (TaskInput.mk "hi".data ["B".data, "a".data] 1 2)
      ["a".data, "B".data] " ".data "\t".data (by decide) (by decide) (by decide)
  · exact c5_id_derivation.2.2.2.2 (TaskInput.mk "hi".data ["B".data, "a".data] 1 2)
      ["a".data] (by decide)

/-- C8: the spec's trailer example parses into details
`"Body line 1\nBody line 2"`, the two trailers in order, and no drops; and
in general, when every line up to the last non-blank line is non-blank
(no separating blank line before the trailing run), there is no trailer
region at all: the bounds are empty, `trailerBlock` reports none, and
`Trailers`/`TrailerDrops` are empty. -/
theorem c8_trailer_parsing :
    ((Task.mk [] "Title\n\nBody line 1\nBody line 2\n\nCo-Authored-By: Jane <jane@example.com>\nReviewed-by: Bob <bob@example.com>\n".data
      false [] [] 0 0).Details = "Body line 1\nBody line 2".data ∧
    (Task.mk [] "Title\n\nBody line 1\nBody line 2\n\nCo-Authored-By: Jane <jane@example.com>\nReviewed-by: Bob <bob@example.com>\n".data
      false [] [] 0 0).Trailers =
      [Trailer.mk "Co-Authored-By".data "Jane <jane@example.com>".data,
       Trailer.mk "Reviewed-by".data "Bob <bob@example.com>".data] ∧
    (Task.mk [] "Title\n\nBody line 1\nBody line 2\n\nCo-Authored-By: Jane <jane@example.com>\nReviewed-by: Bob <bob@example.com>\n".data
      false [] [] 0 0).TrailerDrops = []) ∧
    (∀ t : Task,
      (∀ l ∈ (splitLines t.Text).take ((splitLines t.Text).length -
        ((splitLines t.Text).reverse.takeWhile fun l2 => goTrimSpace l2 = []).length),
        goTrimSpace l ≠ []) →
      trailerRegionBounds t.Text
          = ((splitLines t.Text).length, (splitLines t.Text).length) ∧
        trailerBlock t.Text = ([], [], false) ∧
        t.Trailers = [] ∧ t.TrailerDrops = []) := by
  constructor
  · exact ⟨by decide, by decide, by decide⟩
  · intro t hyp
    set lines := splitLines t.Text with hlines
    set n := lines.length with hn
    set tb := (lines.reverse.takeWhile fun l2 => goTrimSpace l2 = []).length
      with htb
    have htble : tb ≤ n := by
      rw [htb, hn]
      calc (lines.reverse.takeWhile fun l2 => goTrimSpace l2 = []).length
          ≤ lines.reverse.length := (List.takeWhile_prefix _).length_le
        _ = lines.length := List.length_reverse _
    have hbounds : trailerRegionBounds t.Text = (n, n) := by
      rw [trailerRegionBounds]
      by_cases heq : tb = n
      · rw [← hlines, ← hn, ← htb, if_pos heq]
      · rw [← hlines, ← hn, ← htb, if_neg heq]
        have hlt : tb < n := lt_of_le_of_ne htble heq
        have hsz : n - 1 - tb + 1 = n - tb := by omega
        have htake : (lines.take (n - 1 - tb + 1)).length = n - tb := by
          rw [List.length_take, hsz]
          omega
        have hall : ∀ x ∈ (lines.take (n - 1 - tb + 1)).reverse,
            (goTrimSpace x ≠ [] : Bool) = true := by
          intro x hx
          rw [List.mem_reverse] at hx
          have := hyp x (by rw [← hsz]; exact hx)
          simpa using this
        have hrun : ((lines.take (n - 1 - tb + 1)).reverse.takeWhile
            fun l2 => goTrimSpace l2 ≠ []).length = n - 1 - tb + 1 := by
          rw [List.takeWhile_eq_self_iff.mpr hall, List.length_reverse, htake,
            hsz]
        rw [if_pos (by rw [hrun])]
    have hblock : trailerBlock t.Text = ([], [], false) := by
      rw [trailerBlock, ← hlines, hbounds]
      simp
    refine ⟨hbounds, hblock, ?_, ?_⟩
    · rw [Task.Trailers, hblock]
    · rw [Task.TrailerDrops, hblock]

/-- Witness for C8's general clause at `"T\nA\nB: c\n"`: the trailing run
touches the title with no separating blank line, so nothing is parsed as a
trailer. -/
theorem c8_trailer_parsing_witness :
    trailerRegionBounds "T\nA\nB: c\n".data
      = ((splitLines "T\nA\nB: c\n".data).length,
        (splitLines "T\nA\nB: c\n".data).length) ∧
    trailerBlock "T\nA\nB: c\n".data = ([], [], false) ∧
    (Task.mk [] "T\nA\nB: c\n".data false [] [] 0 0).Trailers = [] ∧
    (Task.mk [] "T\nA\nB: c\n".data false [] [] 0 0).TrailerDrops = [] :=
  c8_trailer_parsing.2 (Task.mk [] "T\nA\nB: c\n".data false [] [] 0 0)
    (by decide)

lemma NormalizeInput_snd (inp : TaskInput) :
    (NormalizeInput inp).2 = hexEncode (sha512 (strBytes (jsonMarshalCanonical
      (Canonical.mk (goTrimSpace inp.Text) (sortStrings (goNormTags inp.Tags))
        inp.Priority inp.EstimateMinutes)))) := by
  simp only [NormalizeInput]

lemma isHexLowerChar_not_space (c : Char) (h : isHexLowerChar c) :
    goIsSpace c = false := by
  rw [goIsSpace, decide_eq_false_iff_not]
  intro hsp
  have hb : (48 ≤ c.toNat ∧ c.toNat ≤ 57) ∨ (97 ≤ c.toNat ∧ c.toNat ≤ 102) := by
    rcases h with ⟨h1, h2⟩ | ⟨h1, h2⟩
    · exact Or.inl ⟨h1, h2⟩
    · exact Or.inr ⟨h1, h2⟩
  rcases hb with ⟨a1, a2⟩ | ⟨a1, a2⟩ <;>
    rcases hsp with ⟨b1, b2⟩ | b | b | b | b | ⟨b1, b2⟩ | b | b | b | b | b <;>
    omega

/-- The derived id is a clean id: non-empty, whitespace-free. -/
lemma deriveId_CleanId (inp : TaskInput) : CleanId (NormalizeInput inp).2 := by
  constructor
  · have hl : (NormalizeInput inp).2.length = 128 := by
      rw [NormalizeInput_snd, hexEncode_length, sha512_length]
    intro he
    rw [he] at hl
    simp at hl
  · intro c hc
    rw [NormalizeInput_snd] at hc
    exact isHexLowerChar_not_space c (hexEncode_hex _ c hc)

/-- C4: creating the same input twice yields the same task (hence the same
id) with `existed = false` then `existed = true`, the second call leaves
the state untouched, and every tag-index value stays a duplicate-free id
list.  The canonical pair `(c, idv)` names the normalizer's output. -/
theorem c4_create_idempotent (s : StoreState) (now now2 : Str)
    (inp : TaskInput) (c : Canonical) (idv : Str)
    (hni : NormalizeInput inp = (c, idv)) (hf : s.tagsFail = false)
    (hlk : alLookup s.tasks idv = none)
    (hcl : ∀ p ∈ s.tags, CleanVal p.2.val) :
    ∃ t s1, CreateTask s now inp = .ok (t, false, s1) ∧ t.ID = idv ∧
      CreateTask s1 now2 inp = .ok (t, true, s1) ∧
      ∀ p ∈ s1.tags, CleanVal p.2.val := by
  have hidc : CleanId idv := by
    have h2 := deriveId_CleanId inp
    rw [hni] at h2
    exact h2
  obtain ⟨s2, ha, htasks2, hfail2, hcl2⟩ :=
    appendTags_ok (StoreState.mk (s.tasks ++ [(idv, TaskEntry.mk
      (Task.mk idv c.Text false c.Tags now c.Priority c.EstimateMinutes) 1)])
      s.tags s.tagsFail) c.Tags idv hf hidc hcl
  have hcreate : CreateTask s now inp
      = .ok (Task.mk idv c.Text false c.Tags now c.Priority c.EstimateMinutes,
        false, s2) := by
    simp only [CreateTask, hni, kvTasksCreate, hlk]
    rw [ha]
  have hlk2 : alLookup s2.tasks idv = some (TaskEntry.mk
      (Task.mk idv c.Text false c.Tags now c.Priority c.EstimateMinutes) 1) := by
    rw [htasks2]
    exact alLookup_append_right _ _ _ hlk
  have hcreate2 : CreateTask s2 now2 inp
      = .ok (Task.mk idv c.Text false c.Tags now c.Priority c.EstimateMinutes,
        true, s2) := by
    simp only [CreateTask, hni, kvTasksCreate, kvTasksGet, hlk2]
  exact ⟨_, s2, hcreate, rfl, hcreate2, hcl2⟩

/-- Witness for C4 on the empty store with input `("t", ["a"], 0, 0)`. -/
theorem c4_create_idempotent_witness :
    ∃ t s1, CreateTask (StoreState.mk [] [] false) "n1".data
        (TaskInput.mk "t".data ["a".data] 0 0) = .ok (t, false, s1) ∧
      t.ID = (NormalizeInput (TaskInput.mk "t".data ["a".data] 0 0)).2 ∧
      CreateTask s1 "n2".data (TaskInput.mk "t".data ["a".data] 0 0)
        = .ok (t, true, s1) ∧
      ∀ p ∈ s1.tags, CleanVal p.2.val :=
  c4_create_idempotent (StoreState.mk [] [] false) "n1".data "n2".data
    (TaskInput.mk "t".data ["a".data] 0 0)
    (NormalizeInput (TaskInput.mk "t".data ["a".data] 0 0)).1
    (NormalizeInput (TaskInput.mk "t".data ["a".data] 0 0)).2
    rfl rfl rfl (by simp)

lemma alLookup_eq_none_iff {β : Type} (l : List (Str × β)) (k : Str) :
    alLookup l k = none ↔ k ∉ l.map (·.1) := by
  induction l with
  | nil => exact ⟨fun _ => by simp, fun _ => rfl⟩
  | cons p rest ih =>
    obtain ⟨k2, v2⟩ := p
    by_cases hp : k2 = k
    · subst hp
      simp only [alLookup, if_pos rfl, List.map_cons, List.mem_cons]
      constructor
      · intro h
        cases h
      · intro h
        exfalso
        exact h (Or.inl trivial)
    · simp only [alLookup, if_neg hp, ih, List.map_cons, List.mem_cons, not_or]
      constructor
      · intro h
        exact ⟨fun he => hp he.symm, h⟩
      · exact And.right

/-- `readTag` on a healthy store: always succeeds with a duplicate-free
list whose members are exactly the tag's indexed ids. -/
lemma readTag_ok (s : StoreState) (tag : Str) (hf : s.tagsFail = false) :
    ∃ ids, readTag s tag = .ok ids ∧ ids.Nodup ∧
      ∀ x, x ∈ ids ↔ x ∈ tagIds s tag := by
  cases hlk : alLookup s.tags tag with
  | none =>
    refine ⟨[], by simp [readTag, kvTagsGet, hf, hlk], List.nodup_nil, fun x => ?_⟩
    simp [tagIds, hlk]
  | some e =>
    refine ⟨dedupFirst (valIds e.val),
      by simp [readTag, kvTagsGet, hf, hlk, valIds], dedupFirst_nodup _, fun x => ?_⟩
    rw [dedupFirst_mem]
    simp [tagIds, hlk]

/-- The ANY-union loop of `Query` on a healthy store. -/
lemma unionAux_ok (s : StoreState) (hf : s.tagsFail = false) :
    ∀ (tags : List Str) (acc : List Str), acc.Nodup →
      ∃ ids, unionAux s acc tags = .ok ids ∧ ids.Nodup ∧
        ∀ x, x ∈ ids ↔ x ∈ acc ∨ ∃ tg ∈ tags, x ∈ tagIds s tg := by
  intro tags
  induction tags with
  | nil =>
    intro acc hacc
    exact ⟨acc, rfl, hacc, fun x => by simp⟩
  | cons tg rest ih =>
    intro acc hacc
    obtain ⟨ids0, h0, hnd0, hmem0⟩ := readTag_ok s tg hf
    have haccnd : (acc ++ ids0.filter fun id => id ∉ acc).Nodup := by
      refine List.Nodup.append hacc (hnd0.filter _) ?_
      intro a ha hb
      rcases List.mem_filter.mp hb with ⟨_, hb2⟩
      have hb3 : a ∉ acc := by simpa using hb2
      exact hb3 ha
    obtain ⟨ids, h1, hnd1, hmem1⟩ := ih (acc ++ ids0.filter fun id => id ∉ acc) haccnd
    refine ⟨ids, by simp only [unionAux, h0]; exact h1, hnd1, fun x => ?_⟩
    rw [hmem1 x]
    constructor
    · rintro (hx | ⟨tg2, htg2, hx⟩)
      · rcases List.mem_append.mp hx with h | h
        · exact Or.inl h
        · rcases List.mem_filter.mp h with ⟨h2, _⟩
          exact Or.inr ⟨tg, List.mem_cons_self tg rest, (hmem0 x).mp h2⟩
      · exact Or.inr ⟨tg2, List.mem_cons_of_mem tg htg2, hx⟩
    · rintro (hx | ⟨tg2, htg2, hx⟩)
      · exact Or.inl (List.mem_append.mpr (Or.inl hx))
      · rcases List.mem_cons.mp htg2 with rfl | h2
        · by_cases hxa : x ∈ acc
          · exact Or.inl (List.mem_append.mpr (Or.inl hxa))
          · exact Or.inl (List.mem_append.mpr (Or.inr (List.mem_filter.mpr
              ⟨(hmem0 x).mpr hx, by simpa using hxa⟩)))
        · exact Or.inr ⟨tg2, h2, hx⟩

/-- The ALL-intersection loop of `Query` on a healthy store. -/
lemma interAux_ok (s : StoreState) (hf : s.tagsFail = false) :
    ∀ (tags : List Str) (acc : List Str), acc.Nodup →
      ∃ ids, interAux s acc tags = .ok ids ∧ ids.Nodup ∧
        ∀ x, x ∈ ids ↔ x ∈ acc ∧ ∀ tg ∈ tags, x ∈ tagIds s tg := by
  intro tags
  induction tags with
  | nil =>
    intro acc hacc
    exact ⟨acc, rfl, hacc, fun x => by simp⟩
  | cons tg rest ih =>
    intro acc hacc
    obtain ⟨ids0, h0, hnd0, hmem0⟩ := readTag_ok s tg hf
    obtain ⟨ids, h1, hnd1, hmem1⟩ :=
      ih (acc.filter fun id => id ∈ ids0) (hacc.filter _)
    refine ⟨ids, by simp only [interAux, h0]; exact h1, hnd1, fun x => ?_⟩
    rw [hmem1 x]
    constructor
    · rintro ⟨hxf, hrest⟩
      rcases List.mem_filter.mp hxf with ⟨hxa, hx0⟩
      refine ⟨hxa, fun tg2 h => ?_⟩
      rcases List.mem_cons.mp h with rfl | h2
      · exact (hmem0 x).mp (by simpa using hx0)
      · exact hrest tg2 h2
    · rintro ⟨hxa, hall⟩
      exact ⟨List.mem_filter.mpr ⟨hxa, by
          simpa using (hmem0 x).mpr (hall tg (List.mem_cons_self tg rest))⟩,
        fun tg2 h2 => hall tg2 (List.mem_cons_of_mem tg h2)⟩

/-- One step of the fetch loop of `Query`: the task behind an id, if it
still resolves. -/
def fetchOne (s : StoreState) (id : Str) : Option Task :=
  match GetTask s id with
  | .error _ => none
  | .ok (t, _) => some t

lemma fetchOne_eq_some (s : StoreState) (id : Str) (t : Task) :
    fetchOne s id = some t ↔ ∃ r, GetTask s id = .ok (t, r) := by
  cases hg : GetTask s id with
  | error e =>
    rw [fetchOne, hg]
    simp [hg]
  | ok p =>
    obtain ⟨t2, r⟩ := p
    rw [fetchOne, hg]
    simp only [Option.some.injEq, Except.ok.injEq, Prod.mk.injEq]
    constructor
    · rintro rfl
      exact ⟨r, rfl, rfl⟩
    · rintro ⟨r2, h3, h4⟩
      exact h3

/-- With a non-positive limit the fetch loop keeps every resolving id. -/
lemma fetchLimited_nonpos (s : StoreState) (limit : Int) (hlim : limit ≤ 0) :
    ∀ (ids : List Str) (out : List Task),
      fetchLimited s limit ids out = out ++ ids.filterMap (fetchOne s) := by
  intro ids
  induction ids with
  | nil =>
    intro out
    simp [fetchLimited]
  | cons id rest ih =>
    intro out
    cases hg : GetTask s id with
    | error e =>
      have hf1 : fetchOne s id = none := by rw [fetchOne, hg]
      simp only [fetchLimited, hg, List.filterMap_cons, hf1, ih]
    | ok p =>
      obtain ⟨t, r⟩ := p
      have hf1 : fetchOne s id = some t := by rw [fetchOne, hg]
      have hcond : ¬(limit > 0 ∧ (out.length + 1 : Int) ≥ limit) := by
        rintro ⟨h1, _⟩
        omega
      simp only [fetchLimited, hg, if_neg hcond, ih, List.filterMap_cons, hf1]
      simp

/-- With a positive limit the fetch loop stays within the limit and draws
only from the candidate ids. -/
lemma fetchLimited_pos (s : StoreState) (limit : Int) (hlim : 0 < limit) :
    ∀ (ids : List Str) (out : List Task), (out.length : Int) < limit →
      ((fetchLimited s limit ids out).length : Int) ≤ limit ∧
      ∀ t ∈ fetchLimited s limit ids out,
        t ∈ out ∨ ∃ id ∈ ids, ∃ r, GetTask s id = .ok (t, r) := by
  intro ids
  induction ids with
  | nil =>
    intro out hout
    exact ⟨by simpa [fetchLimited] using le_of_lt hout,
      fun t ht => Or.inl (by simpa [fetchLimited] using ht)⟩
  | cons id rest ih =>
    intro out hout
    cases hg : GetTask s id with
    | error e =>
      have heq : fetchLimited s limit (id :: rest) out
          = fetchLimited s limit rest out := by
        simp only [fetchLimited, hg]
      obtain ⟨hl, hm⟩ := ih out hout
      rw [heq]
      refine ⟨hl, fun t ht => ?_⟩
      rcases hm t ht with h | ⟨id2, h2, r, h3⟩
      · exact Or.inl h
      · exact Or.inr ⟨id2, List.mem_cons_of_mem id h2, r, h3⟩
    | ok p =>
      obtain ⟨t0, r0⟩ := p
      by_cases hcond : limit > 0 ∧ (out.length + 1 : Int) ≥ limit
      · have heq : fetchLimited s limit (id :: rest) out = out ++ [t0] := by
          simp only [fetchLimited, hg, if_pos hcond]
        rw [heq]
        constructor
        · simp only [List.length_append, List.length_cons, List.length_nil]
          push_cast
          omega
        · intro t ht
          rcases List.mem_append.mp ht with h | h
          · exact Or.inl h
          · rcases List.mem_singleton.mp h with rfl
            exact Or.inr ⟨id, List.mem_cons_self id rest, r0, hg⟩
      · have heq : fetchLimited s limit (id :: rest) out
            = fetchLimited s limit rest (out ++ [t0]) := by
          simp only [fetchLimited, hg, if_neg hcond]
        have hout2 : ((out ++ [t0]).length : Int) < limit := by
          push_neg at hcond
          have h2 := hcond hlim
          simp only [List.length_append, List.length_cons, List.length_nil]
          push_cast
          omega
        obtain ⟨hl, hm⟩ := ih (out ++ [t0]) hout2
        rw [heq]
        refine ⟨hl, fun t ht => ?_⟩
        rcases hm t ht with h | ⟨id2, h2, r, h3⟩
        · rcases List.mem_append.mp h with h | h
          · exact Or.inl h
          · rcases List.mem_singleton.mp h with rfl
            exact Or.inr ⟨id, List.mem_cons_self id rest, r0, hg⟩
        · exact Or.inr ⟨id2, List.mem_cons_of_mem id h2, r, h3⟩

/-- A one-task store whose tag bucket is down, exercising the C3 witness. -/
def swallowDemoStore : StoreState :=
  StoreState.mk
    [("x".data, TaskEntry.mk
        (Task.mk "x".data "t".data false ["a".data] [] 0 0) 1)]
    [("a".data, TagEntry.mk "x".data 1)] true

/-- Witness for C3: with the tag bucket down, a fresh tagged Create is
rejected with the substrate error, while Update and Delete of the present
task still succeed with the tag index untouched. -/
theorem c3_error_propagation_witness :
    CreateTask (StoreState.mk [] [] true) []
      (TaskInput.mk "t".data ["a".data] 0 0) = .error GoErr.substrate ∧
    (∃ t s2, UpdateTask swallowDemoStore "x".data
        (UpdateSet.mk none none (some ["b".data]) none) = .ok (t, s2) ∧
      s2.tags = swallowDemoStore.tags) ∧
    (∃ rid s2, DeleteTask swallowDemoStore "x".data = .ok (rid, s2) ∧
      s2.tags = swallowDemoStore.tags) :=
  ⟨c3_error_propagation.1 (StoreState.mk [] [] true) []
      (TaskInput.mk "t".data ["a".data] 0 0) rfl (by simp [alLookup]) (by decide),
    c3_error_propagation.2.1 swallowDemoStore "x".data
      (UpdateSet.mk none none (some ["b".data]) none)
      (Task.mk "x".data "t".data false ["a".data] [] 0 0) 1 rfl (by decide),
    c3_error_propagation.2.2 swallowDemoStore "x".data
      (Task.mk "x".data "t".data false ["a".data] [] 0 0) 1 rfl (by decide)⟩

/-- Spec-side predicate, written from the spec's words rather than the
code: an id matches `Query(anyTags, allTags)` when it lies in the union of
the index sets of the normalized `anyTags` — the whole entity-id universe
when `anyTags` normalizes to nothing — and in the index set of every
normalized `allTags` member. -/
def specQueryIdMatch (s : StoreState) (anyT allT : List Str) (id : Str) :
    Prop :=
  ((goNormTags anyT = [] ∧ id ∈ kvTasksKeys s) ∨
    ∃ tg ∈ goNormTags anyT, id ∈ tagIds s tg) ∧
  ∀ tg ∈ goNormTags allT, id ∈ tagIds s tg

instance specQueryIdMatch.decide (s : StoreState) (anyT allT : List Str)
    (id : Str) : Decidable (specQueryIdMatch s anyT allT id) := by
  unfold specQueryIdMatch
  infer_instance

/-- C7: on a healthy store whose entity keys are the stored tasks' own
non-empty ids, `Query` succeeds and returns exactly the stored tasks whose
id matches the spec's union/intersection set algebra — all of them when
`limit ≤ 0`, and at most `limit` of them (each still a match) when
`limit > 0`. -/
theorem c7_query_set_algebra (s : StoreState) (anyT allT : List Str)
    (limit : Int) (hf : s.tagsFail = false)
    (hids : ∀ p ∈ s.tasks, p.2.task.ID = p.1)
    (hnd : (kvTasksKeys s).Nodup) (hne : [] ∉ kvTasksKeys s) :
    ∃ out, Query s anyT allT limit = .ok out ∧
      (limit ≤ 0 → ∀ t, t ∈ out ↔
        (∃ r, alLookup s.tasks t.ID = some (TaskEntry.mk t r)) ∧
        specQueryIdMatch s anyT allT t.ID) ∧
      (0 < limit → (out.length : Int) ≤ limit ∧ ∀ t ∈ out,
        (∃ r, alLookup s.tasks t.ID = some (TaskEntry.mk t r)) ∧
        specQueryIdMatch s anyT allT t.ID) := by
  obtain ⟨U, hU, hUnd, hUmem⟩ : ∃ U,
      (if goNormTags anyT = []
        then Except.ok (dedupFirst ((kvTasksKeys s).filter fun k => k ≠ []))
        else unionAux s [] (goNormTags anyT)) = .ok U ∧ U.Nodup ∧
      ∀ x, x ∈ U ↔ ((goNormTags anyT = [] ∧ x ∈ kvTasksKeys s) ∨
        ∃ tg ∈ goNormTags anyT, x ∈ tagIds s tg) := by
    by_cases hAny : goNormTags anyT = []
    · refine ⟨_, by rw [if_pos hAny], dedupFirst_nodup _, fun x => ?_⟩
      rw [dedupFirst_mem, List.mem_filter]
      constructor
      · rintro ⟨hx, _⟩
        exact Or.inl ⟨hAny, hx⟩
      · rintro (⟨_, hx⟩ | ⟨tg, htg, _⟩)
        · refine ⟨hx, ?_⟩
          simp only [ne_eq, decide_eq_true_eq]
          intro he
          exact hne (he ▸ hx)
        · rw [hAny] at htg
          cases htg
    · obtain ⟨U, hU, hUnd, hUmem⟩ := unionAux_ok s hf (goNormTags anyT) []
        List.nodup_nil
      refine ⟨U, by rw [if_neg hAny]; exact hU, hUnd, fun x => ?_⟩
      rw [hUmem x]
      constructor
      · rintro (hx | h)
        · cases hx
        · exact Or.inr h
      · rintro (⟨ha, _⟩ | h)
        · exact absurd ha hAny
        · exact Or.inr h
  obtain ⟨I, hI, hInd, hImem⟩ := interAux_ok s hf (goNormTags allT) U hUnd
  have hQ : Query s anyT allT limit = .ok (fetchLimited s limit I []) := by
    simp only [Query, hU, hI]
  have hfwd : ∀ t id r, id ∈ I → GetTask s id = .ok (t, r) →
      (∃ r2, alLookup s.tasks t.ID = some (TaskEntry.mk t r2)) ∧
      specQueryIdMatch s anyT allT t.ID := by
    intro t id r hidI hg
    have hlkt := GetTask_ok_lookup s id t r hg
    have htid : t.ID = id := hids (id, TaskEntry.mk t r) (alLookup_mem _ _ _ hlkt)
    have hmatch : specQueryIdMatch s anyT allT id :=
      ⟨(hUmem id).mp ((hImem id).mp hidI).1, ((hImem id).mp hidI).2⟩
    rw [htid]
    exact ⟨⟨r, hlkt⟩, hmatch⟩
  refine ⟨fetchLimited s limit I [], hQ, ?_, ?_⟩
  · intro hlim t
    rw [fetchLimited_nonpos s limit hlim I [], List.nil_append,
      List.mem_filterMap]
    constructor
    · rintro ⟨id, hidI, hfo⟩
      obtain ⟨r, hg⟩ := (fetchOne_eq_some s id t).mp hfo
      exact hfwd t id r hidI hg
    · rintro ⟨⟨r, hlkt⟩, hmatch⟩
      have hg : GetTask s t.ID = .ok (t, r) := by
        rw [GetTask, kvTasksGet, hlkt]
      refine ⟨t.ID, (hImem t.ID).mpr ⟨(hUmem t.ID).mpr hmatch.1, hmatch.2⟩,
        (fetchOne_eq_some s t.ID t).mpr ⟨r, hg⟩⟩
  · intro hlim
    obtain ⟨hl, hm⟩ := fetchLimited_pos s limit hlim I [] (by simpa using hlim)
    refine ⟨hl, fun t ht => ?_⟩
    rcases hm t ht with h | ⟨id, hidI, r, hg⟩
    · cases h
    · exact hfwd t id r hidI hg

/-- A two-task, two-tag store exercising the C7 witness. -/
def queryDemoStore : StoreState :=
  StoreState.mk
    [("x".data, TaskEntry.mk
        (Task.mk "x".data "tx".data false ["t1".data] "n".data 0 0) 1),
      ("y".data, TaskEntry.mk
        (Task.mk "y".data "ty".data false ["t2".data] "n".data 0 0) 1)]
    [("t1".data, TagEntry.mk "x".data 1), ("t2".data, TagEntry.mk "y".data 1)]
    false

/-- Witness for C7: an unlimited query for tag `t1` on the demo store. -/
theorem c7_query_set_algebra_witness :
    ∃ out, Query queryDemoStore ["t1".data] [] 0 = .ok out ∧
      ((0 : Int) ≤ 0 → ∀ t, t ∈ out ↔
        (∃ r, alLookup queryDemoStore.tasks t.ID = some (TaskEntry.mk t r)) ∧
        specQueryIdMatch queryDemoStore ["t1".data] [] t.ID) ∧
      ((0 : Int) < 0 → (out.length : Int) ≤ 0 ∧ ∀ t ∈ out,
        (∃ r, alLookup queryDemoStore.tasks t.ID = some (TaskEntry.mk t r)) ∧
        specQueryIdMatch queryDemoStore ["t1".data] [] t.ID) :=
  c7_query_set_algebra queryDemoStore ["t1".data] [] 0 rfl (by decide)
    (by decide) (by decide)

lemma alLookup_accAdd_self (acc : List (Str × List Str)) (tg id : Str) :
    alLookup (accAdd acc tg id) tg =
      some ((alLookup acc tg).getD [] ++ [id]) := by
  cases hlk : alLookup acc tg with
  | none =>
    simp only [accAdd, hlk, Option.getD_none]
    rw [alLookup_append_single, hlk]
    simp
  | some l =>
    simp only [accAdd, hlk, Option.getD_some]
    exact alLookup_alPut_self _ _ _

lemma alLookup_accAdd_other (acc : List (Str × List Str)) (tg id tg2 : Str)
    (h : tg2 ≠ tg) : alLookup (accAdd acc tg id) tg2 = alLookup acc tg2 := by
  cases hlk : alLookup acc tg with
  | none =>
    simp only [accAdd, hlk]
    cases h2 : alLookup acc tg2 with
    | some w => rw [alLookup_append_single, h2]
    | none =>
      rw [alLookup_append_single, h2]
      have h3 : ¬tg = tg2 := fun he => h he.symm
      simp [h3]
  | some l =>
    simp only [accAdd, hlk]
    exact alLookup_alPut_other _ _ _ _ (fun he => h he.symm)

lemma accAdd_keys_nodup (acc : List (Str × List Str)) (tg id : Str)
    (h : (acc.map (·.1)).Nodup) : ((accAdd acc tg id).map (·.1)).Nodup := by
  cases hlk : alLookup acc tg with
  | none =>
    simp only [accAdd, hlk, List.map_append]
    refine List.Nodup.append h (by simp) ?_
    intro a ha hb
    have hab : a = tg := by simpa using hb
    subst hab
    exact (alLookup_eq_none_iff acc a).mp hlk ha
  | some l =>
    simp only [accAdd, hlk]
    rw [alPut_keys_of_present]
    · exact h
    · rw [hlk]
      exact fun hc => Option.noConfusion hc

/-- Folding one task's id over a duplicate-free tag list appends the id to
exactly the entries of those tags. -/
lemma foldl_accAdd_lookup (id : Str) :
    ∀ (tgs : List Str), tgs.Nodup → ∀ (acc : List (Str × List Str)) (tg : Str),
      alLookup (tgs.foldl (fun a x => accAdd a x id) acc) tg =
        if tg ∈ tgs then some ((alLookup acc tg).getD [] ++ [id])
        else alLookup acc tg := by
  intro tgs
  induction tgs with
  | nil =>
    intro _ acc tg
    simp
  | cons x r ih =>
    intro hnd acc tg
    rw [List.foldl_cons, ih (List.Nodup.of_cons hnd)]
    by_cases hx : tg = x
    · subst hx
      have htgr : tg ∉ r := (List.nodup_cons.mp hnd).1
      rw [if_neg htgr, if_pos (List.mem_cons_self tg r), alLookup_accAdd_self]
    · by_cases htr : tg ∈ r
      · rw [if_pos htr, if_pos (List.mem_cons_of_mem x htr),
          alLookup_accAdd_other acc x id tg hx]
      · have hc : tg ∉ x :: r := by
          intro hc2
          rcases List.mem_cons.mp hc2 with h | h
          · exact hx h
          · exact htr h
        rw [if_neg htr, if_neg hc, alLookup_accAdd_other acc x id tg hx]

/-- With already-normalized non-empty tags, `accTaskTags` is the plain
fold of `accAdd`. -/
lemma accTaskTags_norm (acc : List (Str × List Str)) (t : Task)
    (h : ∀ tg ∈ t.Tags, goToLower (goTrimSpace tg) = tg ∧ tg ≠ []) :
    accTaskTags acc t = t.Tags.foldl (fun a x => accAdd a x t.ID) acc := by
  rw [accTaskTags]
  have hgen : ∀ (l : List Str),
      (∀ tg ∈ l, goToLower (goTrimSpace tg) = tg ∧ tg ≠ []) →
      ∀ (acc2 : List (Str × List Str)),
      l.foldl
        (fun a tg =>
          let tgn := goToLower (goTrimSpace tg)
          if tgn = [] then a else accAdd a tgn t.ID)
        acc2 = l.foldl (fun a x => accAdd a x t.ID) acc2 := by
    intro l
    induction l with
    | nil =>
      intro _ acc2
      rfl
    | cons x r ihl =>
      intro hl acc2
      obtain ⟨hx1, hx2⟩ := hl x (List.mem_cons_self x r)
      simp only [List.foldl_cons, hx1, if_neg hx2]
      exact ihl (fun tg htg => hl tg (List.mem_cons_of_mem x htg))
        (accAdd acc2 x t.ID)
  exact hgen t.Tags h acc

lemma accTaskTags_lookup (acc : List (Str × List Str)) (t : Task) (tg : Str)
    (h : ∀ tg2 ∈ t.Tags, goToLower (goTrimSpace tg2) = tg2 ∧ tg2 ≠ [])
    (hnd : t.Tags.Nodup) :
    alLookup (accTaskTags acc t) tg =
      if tg ∈ t.Tags then some ((alLookup acc tg).getD [] ++ [t.ID])
      else alLookup acc tg := by
  rw [accTaskTags_norm acc t h, foldl_accAdd_lookup t.ID t.Tags hnd acc tg]

lemma accTaskTags_keys_nodup (acc : List (Str × List Str)) (t : Task)
    (h : (acc.map (·.1)).Nodup) :
    ((accTaskTags acc t).map (·.1)).Nodup := by
  rw [accTaskTags]
  have hgen : ∀ (l : List Str) (acc2 : List (Str × List Str)),
      (acc2.map (·.1)).Nodup →
      ((l.foldl
        (fun a tg =>
          let tgn := goToLower (goTrimSpace tg)
          if tgn = [] then a else accAdd a tgn t.ID)
        acc2).map (·.1)).Nodup := by
    intro l
    induction l with
    | nil =>
      intro acc2 h2
      exact h2
    | cons x r ihl =>
      intro acc2 h2
      simp only [List.foldl_cons]
      by_cases hx : goToLower (goTrimSpace x) = []
      · rw [if_pos hx]
        exact ihl acc2 h2
      · rw [if_neg hx]
        exact ihl _ (accAdd_keys_nodup _ _ _ h2)
  exact hgen t.Tags acc h

/-- Append to an optional tag entry, creating it when absent and the
addition is non-empty. -/
def optAppend (o : Option (List Str)) (n : List Str) : Option (List Str) :=
  if n = [] then o
  else match o with
  | some l => some (l ++ n)
  | none => some n

lemma optAppend_some_append (o : Option (List Str)) (x : Str) (n : List Str) :
    optAppend (some (o.getD [] ++ [x])) n = optAppend o (x :: n) := by
  by_cases hn : n = []
  · subst hn
    cases o with
    | none => simp [optAppend]
    | some l => simp [optAppend]
  · cases o with
    | none => simp [optAppend, hn]
    | some l => simp [optAppend, hn, List.append_assoc]

/-- The accumulator lookup after folding a run of entity entries: the ids
of the entries carrying the tag, appended in scan order. -/
lemma foldl_accTaskTags_lookup :
    ∀ (R : List (Str × TaskEntry)),
      (∀ p ∈ R, p.2.task.ID = p.1 ∧ p.2.task.Tags.Nodup ∧
        ∀ tg2 ∈ p.2.task.Tags, goToLower (goTrimSpace tg2) = tg2 ∧ tg2 ≠ []) →
      ∀ (acc : List (Str × List Str)) (tg : Str),
        alLookup (R.foldl (fun a p => accTaskTags a p.2.task) acc) tg =
          optAppend (alLookup acc tg)
            ((R.filter fun p => tg ∈ p.2.task.Tags).map (·.1)) := by
  intro R
  induction R with
  | nil =>
    intro _ acc tg
    simp [optAppend]
  | cons p R2 ihR =>
    intro hR acc tg
    obtain ⟨hid, hnd, hnorm⟩ := hR p (List.mem_cons_self p R2)
    rw [List.foldl_cons, ihR (fun q hq => hR q (List.mem_cons_of_mem p hq)),
      accTaskTags_lookup acc p.2.task tg hnorm hnd]
    by_cases hmem : tg ∈ p.2.task.Tags
    · rw [if_pos hmem]
      have hfil : (((p :: R2).filter fun q => tg ∈ q.2.task.Tags).map (·.1))
          = p.1 :: ((R2.filter fun q => tg ∈ q.2.task.Tags).map (·.1)) := by
        rw [List.filter_cons, if_pos (by simpa using hmem), List.map_cons]
      rw [hfil, hid, optAppend_some_append]
    · rw [if_neg hmem]
      have hfil : ((p :: R2).filter fun q => tg ∈ q.2.task.Tags)
          = R2.filter fun q => tg ∈ q.2.task.Tags := by
        rw [List.filter_cons, if_neg (by simpa using hmem)]
      rw [hfil]

lemma foldl_accTaskTags_keys_nodup :
    ∀ (R : List (Str × TaskEntry)) (acc : List (Str × List Str)),
      (acc.map (·.1)).Nodup →
      ((R.foldl (fun a p => accTaskTags a p.2.task) acc).map (·.1)).Nodup := by
  intro R
  induction R with
  | nil =>
    intro acc h
    exact h
  | cons p R2 ihR =>
    intro acc h
    rw [List.foldl_cons]
    exact ihR _ (accTaskTags_keys_nodup acc p.2.task h)

/-- On resolvable non-empty keys, `rebuildAcc` is the entry fold. -/
lemma rebuildAcc_eq_foldl (s : StoreState) :
    ∀ (R : List (Str × TaskEntry)) (acc : List (Str × List Str)),
      (∀ p ∈ R, alLookup s.tasks p.1 = some p.2 ∧ p.1 ≠ []) →
      rebuildAcc s (R.map (·.1)) acc =
        R.foldl (fun a p => accTaskTags a p.2.task) acc := by
  intro R
  induction R with
  | nil =>
    intro acc _
    rfl
  | cons p R2 ihR =>
    intro acc hR
    obtain ⟨hlk, hne⟩ := hR p (List.mem_cons_self p R2)
    have hget : GetTask s p.1 = .ok (p.2.task, p.2.rev) := by
      rw [GetTask, kvTasksGet, hlk]
    simp only [List.map_cons, rebuildAcc, if_neg hne, hget, List.foldl_cons]
    exact ihR (accTaskTags acc p.2.task)
      (fun q hq => hR q (List.mem_cons_of_mem p hq))

lemma alLookup_alRemove {β : Type} (l : List (Str × β)) (k tg : Str) :
    alLookup (alRemove l k) tg = if tg = k then none else alLookup l tg := by
  induction l with
  | nil =>
    simp [alRemove, alLookup]
  | cons p rest ih =>
    obtain ⟨k2, v2⟩ := p
    by_cases hk : k2 = k
    · subst hk
      have h1 : alRemove ((k2, v2) :: rest) k2 = alRemove rest k2 := by
        simp [alRemove, List.filter_cons]
      rw [h1, ih]
      by_cases htg : tg = k2
      · rw [if_pos htg, if_pos htg]
      · have h2 : alLookup ((k2, v2) :: rest) tg = alLookup rest tg := by
          rw [alLookup, if_neg (fun h => htg h.symm)]
        rw [if_neg htg, if_neg htg, h2]
    · have h1 : alRemove ((k2, v2) :: rest) k = (k2, v2) :: alRemove rest k := by
        simp [alRemove, List.filter_cons, hk]
      rw [h1]
      by_cases htg : tg = k2
      · subst htg
        rw [if_neg hk]
        rw [alLookup, if_pos rfl, alLookup, if_pos rfl]
      · have h2 : alLookup ((k2, v2) :: alRemove rest k) tg
            = alLookup (alRemove rest k) tg := by
          rw [alLookup, if_neg (fun h => htg h.symm)]
        have h3 : alLookup ((k2, v2) :: rest) tg = alLookup rest tg := by
          rw [alLookup, if_neg (fun h => htg h.symm)]
        rw [h2, h3, ih]

/-- The stale-key deletion pass of `RebuildIndex` on a healthy store:
removes exactly the processed non-empty keys absent from the accumulator,
touching nothing else. -/
lemma deletePass_ok (acc : List (Str × List Str)) :
    ∀ (K : List Str) (st : StoreState), st.tagsFail = false →
      ∃ st1, K.foldl (staleStep acc) st = st1 ∧
        st1.tagsFail = false ∧ st1.tasks = st.tasks ∧
        ∀ tg, alLookup st1.tags tg =
          if tg ∈ K ∧ tg ≠ [] ∧ alLookup acc tg = none then none
          else alLookup st.tags tg := by
  intro K
  induction K with
  | nil =>
    intro st hf
    refine ⟨st, rfl, hf, rfl, fun tg => ?_⟩
    have hc : ¬(tg ∈ ([] : List Str) ∧ tg ≠ [] ∧ alLookup acc tg = none) := by
      rintro ⟨h1, _, _⟩
      exact List.not_mem_nil tg h1
    rw [if_neg hc]
  | cons k K2 ihK =>
    intro st hf
    by_cases hk : k = []
    · obtain ⟨st1, heq, h1, h2, h3⟩ := ihK st hf
      refine ⟨st1, ?_, h1, h2, fun tg => ?_⟩
      · rw [List.foldl_cons, staleStep, if_pos hk]
        exact heq
      · rw [h3 tg]
        by_cases hc : tg ∈ K2 ∧ tg ≠ [] ∧ alLookup acc tg = none
        · rw [if_pos hc, if_pos ⟨List.mem_cons_of_mem k hc.1, hc.2⟩]
        · have hc2 : ¬(tg ∈ k :: K2 ∧ tg ≠ [] ∧ alLookup acc tg = none) := by
            rintro ⟨hm, hne, hl⟩
            rcases List.mem_cons.mp hm with rfl | hm2
            · exact hne hk
            · exact hc ⟨hm2, hne, hl⟩
          rw [if_neg hc, if_neg hc2]
    · cases hacc : alLookup acc k with
      | some ids =>
        obtain ⟨st1, heq, h1, h2, h3⟩ := ihK st hf
        refine ⟨st1, ?_, h1, h2, fun tg => ?_⟩
        · rw [List.foldl_cons]
          have hstep : staleStep acc st k = st := by
            rw [staleStep, if_neg hk]
            simp only [hacc]
          rw [hstep]
          exact heq
        · rw [h3 tg]
          by_cases hc : tg ∈ K2 ∧ tg ≠ [] ∧ alLookup acc tg = none
          · rw [if_pos hc, if_pos ⟨List.mem_cons_of_mem k hc.1, hc.2⟩]
          · have hc2 : ¬(tg ∈ k :: K2 ∧ tg ≠ [] ∧ alLookup acc tg = none) := by
              rintro ⟨hm, hne, hl⟩
              rcases List.mem_cons.mp hm with rfl | hm2
              · rw [hacc] at hl
                cases hl
              · exact hc ⟨hm2, hne, hl⟩
            rw [if_neg hc, if_neg hc2]
      | none =>
        have hnf : ¬(st.tagsFail = true) := by
          rw [hf]
          exact Bool.false_ne_true
        have hstep : staleStep acc st k
            = StoreState.mk st.tasks (alRemove st.tags k) st.tagsFail := by
          rw [staleStep, if_neg hk]
          simp only [hacc]
          rw [kvTagsDelete, if_neg hnf]
          rfl
        obtain ⟨st1, heq, h1, h2, h3⟩ :=
          ihK (StoreState.mk st.tasks (alRemove st.tags k) st.tagsFail) hf
        refine ⟨st1, ?_, h1, by rw [h2], fun tg => ?_⟩
        · rw [List.foldl_cons, hstep]
          exact heq
        · rw [h3 tg]
          by_cases hc : tg ∈ K2 ∧ tg ≠ [] ∧ alLookup acc tg = none
          · rw [if_pos hc, if_pos ⟨List.mem_cons_of_mem k hc.1, hc.2⟩]
          · rw [if_neg hc]
            show alLookup (alRemove st.tags k) tg = _
            rw [alLookup_alRemove]
            by_cases htg : tg = k
            · subst htg
              rw [if_pos rfl, if_pos ⟨List.mem_cons_self tg K2, hk, hacc⟩]
            · have hc2 : ¬(tg ∈ k :: K2 ∧ tg ≠ [] ∧ alLookup acc tg = none) := by
                rintro ⟨hm, hne, hl⟩
                rcases List.mem_cons.mp hm with rfl | hm2
                · exact htg rfl
                · exact hc ⟨hm2, hne, hl⟩
              rw [if_neg htg, if_neg hc2]

/-- `Put` on a healthy tag bucket: succeeds, sets the key, leaves the
rest alone. -/
lemma kvTagsPut_ok (st : StoreState) (k v : Str) (hf : st.tagsFail = false) :
    ∃ st2 r, kvTagsPut st k v = .ok st2 ∧ st2.tagsFail = false ∧
      st2.tasks = st.tasks ∧ alLookup st2.tags k = some (TagEntry.mk v r) ∧
      ∀ k2, k2 ≠ k → alLookup st2.tags k2 = alLookup st.tags k2 := by
  cases hlk : alLookup st.tags k with
  | none =>
    refine ⟨StoreState.mk st.tasks (st.tags ++ [(k, TagEntry.mk v 1)])
        st.tagsFail, 1, by simp [kvTagsPut, hf, hlk], hf, rfl, ?_, ?_⟩
    · exact alLookup_append_right _ _ _ hlk
    · intro k2 hk2
      rw [alLookup_append_single]
      cases h2 : alLookup st.tags k2 with
      | some w => rfl
      | none =>
        have h3 : ¬k = k2 := fun h => hk2 h.symm
        simp [h3]
  | some e =>
    refine ⟨StoreState.mk st.tasks (alPut st.tags k (TagEntry.mk v (e.rev + 1)))
        st.tagsFail, e.rev + 1, by simp [kvTagsPut, hf, hlk], hf, rfl, ?_, ?_⟩
    · exact alLookup_alPut_self _ _ _
    · intro k2 hk2
      exact alLookup_alPut_other _ _ _ _ (fun h => hk2 h.symm)

/-- The write pass of `RebuildIndex` on a healthy store with distinct
accumulator keys: every accumulated tag ends up mapped to the newline join
of its ids, everything else is untouched. -/
lemma writeAcc_ok :
    ∀ (acc : List (Str × List Str)), (acc.map (·.1)).Nodup →
      ∀ (st : StoreState), st.tagsFail = false →
      ∃ st2, writeAcc st acc = .ok st2 ∧ st2.tagsFail = false ∧
        st2.tasks = st.tasks ∧
        (∀ tg, alLookup acc tg = none →
          alLookup st2.tags tg = alLookup st.tags tg) ∧
        (∀ tg ids, alLookup acc tg = some ids →
          ∃ r, alLookup st2.tags tg = some (TagEntry.mk (joinLines ids) r)) := by
  intro acc
  induction acc with
  | nil =>
    intro _ st hf
    exact ⟨st, rfl, hf, rfl, fun _ _ => rfl, fun tg ids h => by cases h⟩
  | cons p rest ihA =>
    obtain ⟨k, ids⟩ := p
    intro hnd st hf
    obtain ⟨st1, r1, hput, hf1, htasks1, hlk1, hother1⟩ :=
      kvTagsPut_ok st k (joinLines ids) hf
    have hndk : (k :: rest.map (·.1)).Nodup := by simpa using hnd
    obtain ⟨st2, hw, hf2, htasks2, hnone2, hsome2⟩ :=
      ihA (List.nodup_cons.mp hndk).2 st1 hf1
    have hknotr : alLookup rest k = none := by
      rw [alLookup_eq_none_iff]
      exact (List.nodup_cons.mp hndk).1
    refine ⟨st2, ?_, hf2, htasks2.trans htasks1, ?_, ?_⟩
    · simp only [writeAcc, hput]
      exact hw
    · intro tg hlk
      have hne : ¬k = tg := by
        intro h
        rw [alLookup, if_pos h] at hlk
        cases hlk
      have hrest : alLookup rest tg = none := by
        rw [alLookup, if_neg hne] at hlk
        exact hlk
      rw [hnone2 tg hrest, hother1 tg (fun h => hne h.symm)]
    · intro tg ids2 hlk
      by_cases hke : k = tg
      · subst hke
        rw [alLookup, if_pos rfl] at hlk
        injection hlk with h2
        subst h2
        refine ⟨r1, ?_⟩
        rw [hnone2 k hknotr]
        exact hlk1
      · rw [alLookup, if_neg hke] at hlk
        exact hsome2 tg ids2 hlk

instance CleanId.decide (id : Str) : Decidable (CleanId id) := by
  unfold CleanId
  infer_instance

/-- C9: on a healthy store of well-keyed tasks with normalized,
duplicate-free tag lists, `RebuildIndex` succeeds without touching the
entity bucket, and afterwards every non-empty tag indexes exactly the ids
of the tasks whose stored tags contain it, every stale tag key is gone,
and `List(tag)` fetches exactly the ids a direct scan of the entity
collection produces. -/
theorem c9_rebuild_index (s : StoreState) (hf : s.tagsFail = false)
    (hids : ∀ p ∈ s.tasks, p.2.task.ID = p.1)
    (hkeys : ∀ p ∈ s.tasks, CleanId p.1)
    (hnd : (kvTasksKeys s).Nodup)
    (htags : ∀ p ∈ s.tasks, p.2.task.Tags.Nodup ∧
      ∀ tg ∈ p.2.task.Tags, goToLower (goTrimSpace tg) = tg ∧ tg ≠ []) :
    ∃ s2, RebuildIndex s = .ok s2 ∧ s2.tasks = s.tasks ∧ s2.tagsFail = false ∧
      (∀ tg, tg ≠ [] → tagIds s2 tg
        = (s.tasks.filter fun p => tg ∈ p.2.task.Tags).map (·.1)) ∧
      (∀ tg, tg ≠ [] → (s.tasks.filter fun p => tg ∈ p.2.task.Tags) = [] →
        alLookup s2.tags tg = none) ∧
      (∀ tg fil, tg ≠ [] → goToLower (goTrimSpace tg) = tg →
        ListTasks s2 tg fil = .ok (listByIds s2 fil
          ((s.tasks.filter fun p => tg ∈ p.2.task.Tags).map (·.1)))) := by
  have hmem : ∀ p ∈ s.tasks, alLookup s.tasks p.1 = some p.2 ∧ p.1 ≠ [] := by
    intro p hp
    refine ⟨alLookup_mem_nodup s.tasks p.1 p.2 (by simpa using hp) hnd,
      (hkeys p hp).1⟩
  have hacc_eq : rebuildAcc s (kvTasksKeys s) []
      = s.tasks.foldl (fun a p => accTaskTags a p.2.task) [] :=
    rebuildAcc_eq_foldl s s.tasks [] hmem
  have haccl : ∀ tg, alLookup (rebuildAcc s (kvTasksKeys s) []) tg
      = optAppend none
        ((s.tasks.filter fun p => tg ∈ p.2.task.Tags).map (·.1)) := by
    intro tg
    rw [hacc_eq]
    exact foldl_accTaskTags_lookup s.tasks
      (fun p hp => ⟨hids p hp, (htags p hp).1, (htags p hp).2⟩) [] tg
  have haccnd : ((rebuildAcc s (kvTasksKeys s) []).map (·.1)).Nodup := by
    rw [hacc_eq]
    exact foldl_accTaskTags_keys_nodup s.tasks [] (by simp)
  obtain ⟨st1, hdel, hf1, htasks1, hlk1⟩ :=
    deletePass_ok (rebuildAcc s (kvTasksKeys s) []) (s.tags.map (·.1)) s hf
  obtain ⟨st2, hwr, hf2, htasks2, hnone2, hsome2⟩ :=
    writeAcc_ok (rebuildAcc s (kvTasksKeys s) []) haccnd st1 hf1
  have hkk : kvTagsKeys s = .ok (s.tags.map (·.1)) := by
    rw [kvTagsKeys, hf]
    rfl
  have hRI : RebuildIndex s = .ok st2 := by
    simp only [RebuildIndex, hkk]
    rw [hdel]
    exact hwr
  have hLclean : ∀ tg,
      ∀ x ∈ (s.tasks.filter fun p => tg ∈ p.2.task.Tags).map (·.1),
        goTrimSpace x = x ∧ x ≠ [] ∧ '\n' ∉ x := by
    intro tg x hx
    obtain ⟨p, hp, rfl⟩ := List.mem_map.mp hx
    exact CleanId_trimfix p.1 (hkeys p (List.mem_filter.mp hp).1)
  have hfinal : ∀ tg, tg ≠ [] →
      ((s.tasks.filter fun p => tg ∈ p.2.task.Tags).map (·.1) = [] ∧
        alLookup st2.tags tg = none) ∨
      (∃ r, (s.tasks.filter fun p => tg ∈ p.2.task.Tags).map (·.1) ≠ [] ∧
        alLookup st2.tags tg = some (TagEntry.mk
          (joinLines ((s.tasks.filter fun p => tg ∈ p.2.task.Tags).map (·.1)))
          r)) := by
    intro tg htg
    by_cases hL : (s.tasks.filter fun p => tg ∈ p.2.task.Tags).map (·.1) = []
    · left
      refine ⟨hL, ?_⟩
      have haccn : alLookup (rebuildAcc s (kvTasksKeys s) []) tg = none := by
        rw [haccl tg, hL]
        rfl
      rw [hnone2 tg haccn, hlk1 tg]
      by_cases hmem2 : tg ∈ s.tags.map (·.1)
      · rw [if_pos ⟨hmem2, htg, haccn⟩]
      · have hc : ¬(tg ∈ s.tags.map (·.1) ∧ tg ≠ [] ∧
            alLookup (rebuildAcc s (kvTasksKeys s) []) tg = none) := by
          rintro ⟨hm, _, _⟩
          exact hmem2 hm
        rw [if_neg hc]
        exact (alLookup_eq_none_iff s.tags tg).mpr hmem2
    · right
      have haccs : alLookup (rebuildAcc s (kvTasksKeys s) []) tg
          = some ((s.tasks.filter fun p => tg ∈ p.2.task.Tags).map (·.1)) := by
        rw [haccl tg, optAppend, if_neg hL]
      obtain ⟨r, hr⟩ := hsome2 tg _ haccs
      exact ⟨r, hL, hr⟩
  refine ⟨st2, hRI, htasks2.trans htasks1, hf2, ?_, ?_, ?_⟩
  · intro tg htg
    rcases hfinal tg htg with ⟨hL, hlkn⟩ | ⟨r, hL, hlks⟩
    · rw [hL, tagIds, hlkn]
    · rw [tagIds, hlks]
      show valIds (joinLines
        ((s.tasks.filter fun p => tg ∈ p.2.task.Tags).map (·.1))) = _
      exact valIds_joinLines _ (hLclean tg)
  · intro tg htg hfil
    rcases hfinal tg htg with ⟨hL, hlkn⟩ | ⟨r, hL, hlks⟩
    · exact hlkn
    · exact absurd (by rw [hfil]; rfl) hL
  · intro tg fil htg hnorm
    rcases hfinal tg htg with ⟨hL, hlkn⟩ | ⟨r, hL, hlks⟩
    · have hg : kvTagsGet st2 tg = .error .keyNotFound := by
        rw [kvTagsGet, hf2, hlkn]
        rfl
      rw [hL]
      show ListTasks st2 tg fil = .ok []
      rw [ListTasks, if_pos htg, hnorm, hg]
    · have hg : kvTagsGet st2 tg = .ok (TagEntry.mk
          (joinLines ((s.tasks.filter fun p => tg ∈ p.2.task.Tags).map (·.1)))
          r) := by
        rw [kvTagsGet, hf2, hlks]
        rfl
      have hsplit : splitLines (joinLines
          ((s.tasks.filter fun p => tg ∈ p.2.task.Tags).map (·.1)))
          = (s.tasks.filter fun p => tg ∈ p.2.task.Tags).map (·.1) :=
        splitLines_joinLines _ hL (fun l hl => (hLclean tg l hl).2.2)
      rw [ListTasks, if_pos htg, hnorm, hg]
      show Except.ok (listByIds st2 fil (splitLines (joinLines
        ((s.tasks.filter fun p => tg ∈ p.2.task.Tags).map (·.1))))) = _
      rw [hsplit]

/-- A one-task store with a stale tag key, exercising the C9 witness. -/
def rebuildDemoStore : StoreState :=
  StoreState.mk
    [("x".data, TaskEntry.mk
        (Task.mk "x".data "tx".data false ["a".data] "n".data 0 0) 1)]
    [("stale".data, TagEntry.mk "zz".data 1)]
    false

/-- Witness for C9: rebuilding the demo store's index. -/
theorem c9_rebuild_index_witness :
    ∃ s2, RebuildIndex rebuildDemoStore = .ok s2 ∧
      s2.tasks = rebuildDemoStore.tasks ∧ s2.tagsFail = false ∧
      (∀ tg, tg ≠ [] → tagIds s2 tg
        = (rebuildDemoStore.tasks.filter
            fun p => tg ∈ p.2.task.Tags).map (·.1)) ∧
      (∀ tg, tg ≠ [] →
        (rebuildDemoStore.tasks.filter fun p => tg ∈ p.2.task.Tags) = [] →
        alLookup s2.tags tg = none) ∧
      (∀ tg fil, tg ≠ [] → goToLower (goTrimSpace tg) = tg →
        ListTasks s2 tg fil = .ok (listByIds s2 fil
          ((rebuildDemoStore.tasks.filter
            fun p => tg ∈ p.2.task.Tags).map (·.1)))) :=
  c9_rebuild_index rebuildDemoStore rfl (by decide) (by decide) (by decide)
    (by decide)

end UTask
